import Mathlib

set_option maxHeartbeats 1000000

/-!
A shallow embedding of the household-simulation dataset generator
(dataset.py): the entity model (rooms, stationary items, movable items,
the single person), the placement engine used at world-generation time,
the retrying action simulator, and the problem encoder fragments
(objects and initial conditions) needed to verify the stated
properties.  Randomness is modelled by explicit choice oracles: a coin
oracle, a natural-number oracle (an index draw r from range n is
represented as r % n), and a shuffle oracle that is assumed (as a
theorem hypothesis) to return a permutation of its input.  Narration
strings are kept structurally simple; no verified property depends on
their wording, only on whether an action returns one.
-/

/-- The concrete MovableItem subtypes of the source. -/
inductive MovType where
  | book
  | pen
  | food
  | kitchenware
  | phone
  deriving DecidableEq

/-- The concrete StationaryItem subtypes of the source. -/
inductive StatType where
  | table
  | shelf
  | fridge
  | sink
  | window
  | light
  | tv
  deriving DecidableEq

/-- The concrete Room subtypes of the source. -/
inductive RoomType where
  | kitchen
  | livingroom
  | bedroom
  deriving DecidableEq

/-- Container.can_hold of each container subtype: Table and Shelf hold
anything, a Fridge holds Food, a Sink holds Kitchenware; the remaining
stationary types are not containers. -/
def canHold : StatType → MovType → Bool
  | .table, _ => true
  | .shelf, _ => true
  | .fridge, m => m == .food
  | .sink, m => m == .kitchenware
  | _, _ => false

/-- One stationary item instance.  The single record merges the state
fields of the source subclasses: levels is meaningful for a Shelf,
the toggle field holds Light.isOn / TV.isOn / Sink.faucet_on / Window.open,
and channel holds the index of TV.curr_channel. -/
structure Stationary where
  pddlName : String
  stype : StatType
  levels : Nat
  isOn : Bool
  channel : Nat
  deriving DecidableEq

/-- One movable item instance: its container field holds the pddl name
of the container it sits in (None while in the person's hand), level is
the shelf-level entry of extra_location_info, ringing is Phone.ringing. -/
structure Movable where
  pddlName : String
  mtype : MovType
  container : Option String
  level : Option Nat
  ringing : Bool
  deriving DecidableEq

/-- One room instance: rooms own only stationary items. -/
structure Room where
  pddlName : String
  rtype : RoomType
  stats : List Stationary
  deriving DecidableEq

/-- The generator state: the rooms, the movable-item pool
(DatasetGenerator.movable_items), and Person.item as an index into the
pool. -/
structure World where
  rooms : List Room
  movables : List Movable
  personItem : Option Nat
  deriving DecidableEq

def allStats (w : World) : List Stationary :=
  w.rooms.flatMap (fun r => r.stats)

def findStat (w : World) (c : String) : Option Stationary :=
  (allStats w).find? (fun s => s.pddlName == c)

/-- Update the element at one index of a list, in place. -/
def updIdx : List α → Nat → (α → α) → List α
  | [], _, _ => []
  | a :: l, 0, f => f a :: l
  | a :: l, n + 1, f => a :: updIdx l n f

/-- Update the stationary item with the given pddl name. -/
def updateStat (w : World) (c : String) (f : Stationary → Stationary) : World :=
  { w with rooms := w.rooms.map (fun r =>
      { r with stats := r.stats.map (fun s => if s.pddlName == c then f s else s) }) }

/-- Result of a perform_action call: None ("not applicable now"), the
failure of the assert inside MovableItem.perform_action, divergence of
an inner retry loop, or a narrated action together with the new state. -/
inductive ActRes where
  | noop
  | afail
  | spin
  | act (narration : String) (w : World)
  deriving DecidableEq

/-- MovableItem.perform_action (the pick-up): applicable only when the
hand is empty; asserts that the item is in a container, then moves it
to the hand. -/
def pickUp (w : World) (i : Nat) : ActRes :=
  match w.personItem with
  | some _ => .noop
  | none =>
    match w.movables[i]? with
    | none => .noop
    | some m =>
      match m.container with
      | none => .afail
      | some _ =>
        .act ("I picked up " ++ m.pddlName ++ ".")
          { w with personItem := some i,
                   movables := updIdx w.movables i
                     (fun x => { x with container := none, level := none }) }

/-- Container.perform_action: applicable only when the person holds an
item the container can hold; re-computes the relative location (for a
shelf, a fresh level draw lr from range levels, represented as
1 + lr % levels). -/
def placeInto (w : World) (s : Stationary) (lr : Nat) : ActRes :=
  match w.personItem with
  | none => .noop
  | some i =>
    match w.movables[i]? with
    | none => .noop
    | some m =>
      if canHold s.stype m.mtype then
        .act ("I placed " ++ m.pddlName ++ " into " ++ s.pddlName ++ ".")
          { w with personItem := none,
                   movables := updIdx w.movables i (fun x =>
                     { x with container := some s.pddlName,
                              level := if s.stype == .shelf
                                       then some (1 + lr % s.levels) else none }) }
      else .noop

/-- Window.perform_action: always applicable, toggles the blinds. -/
def toggleWindow (w : World) (s : Stationary) : ActRes :=
  .act ("I " ++ (if !s.isOn then "opened" else "closed") ++ " the blinds of "
        ++ s.pddlName ++ ".")
    (updateStat w s.pddlName (fun t => { t with isOn := !t.isOn }))

/-- Light.perform_action on the instance: toggles and narrates with the
new state. -/
def lightPerform (s : Stationary) : Stationary × String :=
  ({ s with isOn := !s.isOn },
   "I turned " ++ (if !s.isOn then "on" else "off") ++ " the " ++ s.pddlName ++ ".")

def toggleLight (w : World) (s : Stationary) : ActRes :=
  .act (lightPerform s).2 (updateStat w s.pddlName (fun t => (lightPerform t).1))

/-- Sink.interact: always applicable, toggles the faucet. -/
def sinkInteract (w : World) (s : Stationary) : ActRes :=
  .act ("I turned " ++ (if !s.isOn then "on" else "off") ++ " the faucet of "
        ++ s.pddlName ++ ".")
    (updateStat w s.pddlName (fun t => { t with isOn := !t.isOn }))

/-- TV.perform_action on the instance.  When on, a coin decides between
switching to a channel drawn from the six channels (index ch % 6) and
turning the TV off (which keeps curr_channel); when off, it turns on
and draws a channel. -/
def tvPerform (coin : Bool) (ch : Nat) (s : Stationary) : Stationary × String :=
  if s.isOn then
    if coin then
      ({ s with channel := ch % 6 },
       "I switched the channel of " ++ s.pddlName ++ ".")
    else
      ({ s with isOn := false }, "I turned off " ++ s.pddlName ++ ".")
  else
    ({ s with isOn := true, channel := ch % 6 }, "I turned on " ++ s.pddlName ++ ".")

def tvGo (w : World) (s : Stationary) (coin : Bool) (ch : Nat) : ActRes :=
  .act (tvPerform coin ch s).2
    (updateStat w s.pddlName (fun t => (tvPerform coin ch t).1))

/-- Phone.interact: always applicable, toggles ringing. -/
def phoneRing (w : World) (i : Nat) : ActRes :=
  match w.movables[i]? with
  | none => .noop
  | some m =>
    .act (m.pddlName ++ (if !m.ringing then " started" else " stopped") ++ " ringing.")
      { w with movables := updIdx w.movables i (fun x => { x with ringing := !x.ringing }) }

/-- An initial-condition predicate: a name applied to argument symbols.
The source renders it as the space-separated string of name and args. -/
structure InitPred where
  name : String
  args : List String
  deriving DecidableEq

/-- The pddl names of TV.CHANNELS, in order. -/
def CHANNELS : List String :=
  ["the-discovery-channel", "cartoon-network", "nbc", "cnn", "fox-news", "espn"]

def channelName (c : Nat) : String := CHANNELS.getD c ""

/-- Shelf.get_level_name. -/
def levelName (i : Nat) : String := "level-" ++ toString i

/-- Light.get_special_init_conditions. -/
def lightSpecialInit (s : Stationary) : List InitPred :=
  if s.isOn then [⟨"light-on", [s.pddlName]⟩] else []

/-- Window.get_special_init_conditions. -/
def windowSpecialInit (s : Stationary) : List InitPred :=
  if s.isOn then [⟨"window-open", [s.pddlName]⟩] else []

/-- Sink.get_special_init_conditions. -/
def sinkSpecialInit (s : Stationary) : List InitPred :=
  if s.isOn then [⟨"faucet-on", [s.pddlName]⟩] else []

/-- TV.get_special_init_conditions. -/
def tvSpecialInit (s : Stationary) : List InitPred :=
  if s.isOn then
    [⟨"tv-on", [s.pddlName]⟩, ⟨"tv-playing-channel", [s.pddlName, channelName s.channel]⟩]
  else []

/-- C8: toggling a light twice returns it to its original on/off state,
and the light-on predicate is present in its init conditions exactly
when its boolean state is true (hence unchanged after an even number of
toggles). -/
theorem light_double_toggle_and_init (s : Stationary) :
    (lightPerform (lightPerform s).1).1.isOn = s.isOn ∧
      (InitPred.mk "light-on" [s.pddlName] ∈ lightSpecialInit s ↔ s.isOn = true) := by
  constructor
  · simp [lightPerform]
  · cases h : s.isOn <;> simp [lightSpecialInit, h]

/-- C10: the tv-playing-channel predicate appears in a TV's init
conditions exactly when the TV is on, and then only for the current
channel; turning an on TV off removes both tv-on and the channel
predicate while the internal channel field keeps its value. -/
theorem tv_channel_init_iff_on (s : Stationary) (ch : Nat) (h : s.isOn = true) :
    (∀ c, InitPred.mk "tv-playing-channel" [s.pddlName, c] ∈ tvSpecialInit s ↔
       (s.isOn = true ∧ c = channelName s.channel)) ∧
      ((tvPerform false ch s).1.isOn = false ∧
        tvSpecialInit (tvPerform false ch s).1 = [] ∧
        (tvPerform false ch s).1.channel = s.channel) := by
  refine ⟨fun c => ?_, ?_⟩
  · simp [tvSpecialInit, h, InitPred.mk.injEq]
  · simp [tvPerform, h, tvSpecialInit]

/-- Witness for C10 at a concrete on TV. -/
theorem tv_channel_init_iff_on_witness :
    (∀ c, InitPred.mk "tv-playing-channel" ["kitchen-tv", c] ∈
        tvSpecialInit ⟨"kitchen-tv", .tv, 0, true, 2⟩ ↔
       (true = true ∧ c = channelName 2)) ∧
      ((tvPerform false 4 ⟨"kitchen-tv", .tv, 0, true, 2⟩).1.isOn = false ∧
        tvSpecialInit (tvPerform false 4 ⟨"kitchen-tv", .tv, 0, true, 2⟩).1 = [] ∧
        (tvPerform false 4 ⟨"kitchen-tv", .tv, 0, true, 2⟩).1.channel = 2) :=
  tv_channel_init_iff_on ⟨"kitchen-tv", .tv, 0, true, 2⟩ 4 rfl

/-! ## The ownership invariant -/

/-- One movable's ownership state is well formed: either it is the held
item (container is None and the person holds exactly this index), or it
sits in a container that exists, accepts its type and, for a shelf,
records an in-range level. -/
def itemOKB (w : World) (j : Nat) : Bool :=
  match w.movables[j]? with
  | none => true
  | some m =>
    match m.container with
    | none => w.personItem == some j
    | some c =>
      (w.personItem != some j) &&
      (match findStat w c with
       | none => false
       | some s =>
         canHold s.stype m.mtype &&
         (if s.stype == .shelf then
            match m.level with
            | none => false
            | some l => decide (1 ≤ l) && decide (l ≤ s.levels)
          else true))

/-- Static sanity of a stationary item: a shelf has between
MIN_LEVELS = 3 and MAX_LEVELS = 10 levels, a TV channel index is one of
the six channels. -/
def statOKB (s : Stationary) : Bool :=
  (if s.stype == .shelf then decide (3 ≤ s.levels) && decide (s.levels ≤ 10) else true) &&
  (if s.stype == .tv then decide (s.channel < 6) else true)

/-- The held index, when present, points at a pool item whose container
is None. -/
def heldOKB (w : World) : Bool :=
  match w.personItem with
  | none => true
  | some i =>
    match w.movables[i]? with
    | none => false
    | some m => m.container == none

/-- Pddl names are unique among stationary items and among movables. -/
def namesOKB (w : World) : Bool :=
  decide (((allStats w).map (fun s => s.pddlName)).Nodup) &&
  decide ((w.movables.map (fun m => m.pddlName)).Nodup)

def invB (w : World) : Bool :=
  heldOKB w && (List.range w.movables.length).all (fun j => itemOKB w j) &&
    (allStats w).all statOKB && namesOKB w

abbrev WInv (w : World) : Prop := invB w = true

theorem winv_held {w : World} (h : WInv w) : heldOKB w = true := by
  have := h
  simp only [WInv, invB, Bool.and_eq_true] at this
  exact this.1.1.1

theorem winv_item {w : World} (h : WInv w) (j : Nat) : itemOKB w j = true := by
  have h2 := h
  simp only [WInv, invB, Bool.and_eq_true, List.all_eq_true] at h2
  by_cases hj : j < w.movables.length
  · exact h2.1.1.2 j (List.mem_range.mpr hj)
  · have hn : w.movables[j]? = none := List.getElem?_eq_none (Nat.le_of_not_lt hj)
    simp only [itemOKB, hn]

theorem winv_stat {w : World} (h : WInv w) {s : Stationary} (hs : s ∈ allStats w) :
    statOKB s = true := by
  have h2 := h
  simp only [WInv, invB, Bool.and_eq_true, List.all_eq_true] at h2
  exact h2.1.2 s hs

theorem winv_statNodup {w : World} (h : WInv w) :
    ((allStats w).map (fun s => s.pddlName)).Nodup := by
  have h2 := h
  simp only [WInv, invB, Bool.and_eq_true, decide_eq_true_eq, namesOKB] at h2
  exact h2.2.1

theorem winv_movNodup {w : World} (h : WInv w) :
    (w.movables.map (fun m => m.pddlName)).Nodup := by
  have h2 := h
  simp only [WInv, invB, Bool.and_eq_true, decide_eq_true_eq, namesOKB] at h2
  exact h2.2.2

/-- Under the invariant, an empty hand forces every pool movable to sit
in a container that exists, accepts it and has a valid shelf level. -/
theorem winv_container_of_handEmpty {w : World} (h : WInv w)
    (hp : w.personItem = none) {j : Nat} {m : Movable}
    (hm : w.movables[j]? = some m) :
    ∃ c s, m.container = some c ∧ findStat w c = some s ∧
      canHold s.stype m.mtype = true := by
  have hi := winv_item h j
  simp only [itemOKB, hm] at hi
  cases hc : m.container with
  | none => simp only [hc, hp] at hi; simp at hi
  | some c =>
    simp only [hc] at hi
    cases hf : findStat w c with
    | none => simp only [hf] at hi; simp at hi
    | some s =>
      simp only [hf, Bool.and_eq_true] at hi
      exact ⟨c, s, rfl, hf, hi.2.1⟩

/-! ## List helpers for point updates -/

theorem length_updIdx (l : List α) (n : Nat) (f : α → α) :
    (updIdx l n f).length = l.length := by
  induction l generalizing n with
  | nil => rfl
  | cons a l ih =>
    cases n with
    | zero => rfl
    | succ n => simp [updIdx, ih]

theorem getElem?_updIdx_self {l : List α} {n : Nat} {a : α} (f : α → α)
    (h : l[n]? = some a) : (updIdx l n f)[n]? = some (f a) := by
  induction l generalizing n with
  | nil => simp at h
  | cons b l ih =>
    cases n with
    | zero => simp_all [updIdx]
    | succ n => simpa [updIdx] using ih (by simpa using h)

theorem getElem?_updIdx_ne (l : List α) (f : α → α) {n j : Nat} (h : j ≠ n) :
    (updIdx l n f)[j]? = l[j]? := by
  induction l generalizing n j with
  | nil => rfl
  | cons b l ih =>
    cases n with
    | zero =>
      cases j with
      | zero => exact absurd rfl h
      | succ j => rfl
    | succ n =>
      cases j with
      | zero => simp [updIdx]
      | succ j => simpa [updIdx] using ih (fun hh => h (by omega))

theorem map_updIdx (l : List α) (n : Nat) (f : α → α) (g : α → β)
    (h : ∀ a, g (f a) = g a) : (updIdx l n f).map g = l.map g := by
  induction l generalizing n with
  | nil => rfl
  | cons b l ih =>
    cases n with
    | zero => simp [updIdx, h]
    | succ n => simp [updIdx, ih]

theorem nodup_map_getElem?_ne {l : List α} {f : α → β} (h : (l.map f).Nodup)
    {i j : Nat} {a b : α} (ha : l[i]? = some a) (hb : l[j]? = some b)
    (hij : i ≠ j) : f a ≠ f b := by
  intro he
  have hma : (l.map f)[i]? = some (f a) := by rw [List.getElem?_map, ha]; rfl
  have hmb : (l.map f)[j]? = some (f b) := by rw [List.getElem?_map, hb]; rfl
  have hi : i < (l.map f).length := by
    by_contra hh
    rw [List.getElem?_eq_none (Nat.le_of_not_lt hh)] at hma
    exact Option.noConfusion hma
  exact hij (List.getElem?_inj hi h (by rw [hma, hmb, he]))

/-! ## A small concrete world used by witnesses -/

def fridgeW : Stationary := ⟨"kitchen-fridge", .fridge, 0, false, 0⟩

def sinkW : Stationary := ⟨"kitchen-sink", .sink, 0, false, 0⟩

def lightW : Stationary := ⟨"kitchen-overhead-light", .light, 0, false, 0⟩

def appleW : Movable := ⟨"apple", .food, some "kitchen-fridge", none, false⟩

def sampleWorld : World :=
  ⟨[⟨"kitchen", .kitchen, [fridgeW, sinkW, lightW]⟩], [appleW], none⟩

/-- C9: under the ownership invariant the assert inside
MovableItem.perform_action never fires: whenever the hand is empty,
every candidate movable has a non-None container, so pick-up cannot
fail the assert. -/
theorem pickup_assert_never_fails (w : World) (h : WInv w)
    (hp : w.personItem = none) (i : Nat) :
    pickUp w i ≠ ActRes.afail ∧
      ∀ m, w.movables[i]? = some m → m.container ≠ none := by
  have key : ∀ m, w.movables[i]? = some m → m.container ≠ none := by
    intro m hm hc
    obtain ⟨c, s, hcs, _, _⟩ := winv_container_of_handEmpty h hp hm
    rw [hc] at hcs
    exact Option.noConfusion hcs
  refine ⟨?_, key⟩
  cases hg : w.movables[i]? with
  | none => simp [pickUp, hp, hg]
  | some m =>
    cases hc : m.container with
    | none => exact absurd hc (key m hg)
    | some c => simp [pickUp, hp, hg, hc]

/-- Witness for C9 on the concrete sample world. -/
theorem pickup_assert_never_fails_witness :
    pickUp sampleWorld 0 ≠ ActRes.afail :=
  (pickup_assert_never_fails sampleWorld (by decide) rfl 0).1

/-! ## The problem encoder: objects and initial conditions -/

/-- The class type name of each stationary subtype (cls.get_type_name). -/
def statTypeName : StatType → String
  | .table => "table"
  | .shelf => "shelf"
  | .fridge => "fridge"
  | .sink => "sink"
  | .window => "window"
  | .light => "light"
  | .tv => "tv"

/-- The class type name of each room subtype. -/
def roomTypeName : RoomType → String
  | .kitchen => "kitchen"
  | .livingroom => "livingroom"
  | .bedroom => "bedroom"

/-- The class type name of each movable subtype. -/
def movTypeName : MovType → String
  | .book => "book"
  | .pen => "pen"
  | .food => "food"
  | .kitchenware => "kitchenware"
  | .phone => "phone"

/-- Container.get_contains_predicate for the container holding m: the
contains predicate name of the container class, the container and item
symbols, and for a shelf additionally the pddl level symbol from the
item's extra location info. -/
def containsPred (s : Stationary) (m : Movable) : InitPred :=
  ⟨statTypeName s.stype ++ "-contains",
   [s.pddlName, m.pddlName] ++
     (if s.stype == .shelf then [levelName (m.level.getD 0)] else [])⟩

/-- MovableItem.get_init_conditions (plus the phone's special init):
in-hand when held, otherwise the container's contains predicate. -/
def movInit (w : World) (m : Movable) : List InitPred :=
  (match m.container with
   | none => [⟨"in-hand", ["me", m.pddlName]⟩]
   | some c =>
     match findStat w c with
     | none => []
     | some s => [containsPred s m]) ++
  (if m.mtype == .phone && m.ringing then [⟨"phone-ringing", [m.pddlName]⟩] else [])

/-- A stationary item's init conditions: the in-room predicate of its
parent room plus its special init conditions (shelf-has-level lines for
a shelf, toggle predicates for interactables). -/
def statInit (rt : RoomType) (roomName : String) (s : Stationary) : List InitPred :=
  ⟨"in-" ++ roomTypeName rt, [roomName, s.pddlName]⟩ ::
    (match s.stype with
     | .shelf => (List.range s.levels).map
         (fun i => ⟨"shelf-has-level", [s.pddlName, levelName (i + 1)]⟩)
     | .sink => sinkSpecialInit s
     | .window => windowSpecialInit s
     | .light => lightSpecialInit s
     | .tv => tvSpecialInit s
     | _ => [])

/-- Person.get_init_conditions. -/
def personInit (w : World) : List InitPred :=
  match w.personItem with
  | none => [⟨"hand-empty", ["me"]⟩]
  | some _ => []

/-- The init-condition list of generate_problem_pddl: person, then each
room's items, then each pool movable. -/
def initConds (w : World) : List InitPred :=
  personInit w ++
    w.rooms.flatMap (fun r => r.stats.flatMap (statInit r.rtype r.pddlName)) ++
    w.movables.flatMap (movInit w)

/-- The static objects contributed once per type regardless of instance
count: the ten shelf level symbols and the six TV channels. -/
def staticObjects : List (String × String) :=
  (List.range 10).map (fun i => (levelName (i + 1), "level")) ++
    CHANNELS.map (fun c => (c, "channel"))

/-- The object declarations of generate_problem_pddl: the person, each
room with its items, each pool movable, and the static objects. -/
def pddlObjects (w : World) : List (String × String) :=
  ("me", "person") ::
    (w.rooms.flatMap (fun r =>
        (r.pddlName, roomTypeName r.rtype) ::
          r.stats.map (fun s => (s.pddlName, statTypeName s.stype))) ++
      w.movables.map (fun m => (m.pddlName, movTypeName m.mtype)) ++
      staticObjects)

def objNames (w : World) : List String := (pddlObjects w).map Prod.fst

/-- The contains-predicate names of the four container classes. -/
def containsNames : List String :=
  ["table-contains", "shelf-contains", "fridge-contains", "sink-contains"]

/-! ## Membership facts about the declared objects -/

theorem me_mem_objNames (w : World) : "me" ∈ objNames w := by
  simp [objNames, pddlObjects]

theorem room_mem_objNames {w : World} {r : Room} (h : r ∈ w.rooms) :
    r.pddlName ∈ objNames w := by
  have hpair : (r.pddlName, roomTypeName r.rtype) ∈ pddlObjects w := by
    simp only [pddlObjects, List.mem_cons, List.mem_append, List.mem_flatMap]
    exact Or.inr (Or.inl (Or.inl ⟨r, h, Or.inl rfl⟩))
  exact List.mem_map_of_mem Prod.fst hpair

theorem stat_mem_objNames {w : World} {s : Stationary} (h : s ∈ allStats w) :
    s.pddlName ∈ objNames w := by
  simp only [allStats, List.mem_flatMap] at h
  obtain ⟨r, hr, hs⟩ := h
  have hpair : (s.pddlName, statTypeName s.stype) ∈ pddlObjects w := by
    simp only [pddlObjects, List.mem_cons, List.mem_append, List.mem_flatMap]
    exact Or.inr (Or.inl (Or.inl ⟨r, hr,
      Or.inr (List.mem_map_of_mem _ hs)⟩))
  exact List.mem_map_of_mem Prod.fst hpair

theorem mov_mem_objNames {w : World} {m : Movable} (h : m ∈ w.movables) :
    m.pddlName ∈ objNames w := by
  have hpair : (m.pddlName, movTypeName m.mtype) ∈ pddlObjects w := by
    simp only [pddlObjects, List.mem_cons, List.mem_append, List.mem_map]
    exact Or.inr (Or.inl (Or.inr ⟨m, h, rfl⟩))
  exact List.mem_map_of_mem Prod.fst hpair

theorem level_mem_objNames (w : World) {k : Nat} (h1 : 1 ≤ k) (h10 : k ≤ 10) :
    levelName k ∈ objNames w := by
  have hpair : (levelName k, "level") ∈ pddlObjects w := by
    simp only [pddlObjects, staticObjects, List.mem_cons, List.mem_append,
      List.mem_map, List.mem_range]
    refine Or.inr (Or.inr (Or.inl ⟨k - 1, by omega, ?_⟩))
    have hk : k - 1 + 1 = k := by omega
    rw [hk]
  exact List.mem_map_of_mem Prod.fst hpair

theorem channel_mem_objNames (w : World) {c : Nat} (h : c < 6) :
    channelName c ∈ objNames w := by
  have hc : channelName c ∈ CHANNELS := by
    have hb : ∀ x, x < 6 → channelName x ∈ CHANNELS := by decide
    exact hb c h
  have hpair : (channelName c, "channel") ∈ pddlObjects w := by
    simp only [pddlObjects, staticObjects, List.mem_cons, List.mem_append,
      List.mem_map]
    exact Or.inr (Or.inr (Or.inr ⟨channelName c, hc, rfl⟩))
  exact List.mem_map_of_mem Prod.fst hpair

/-! ## More invariant extraction lemmas -/

theorem winv_contained {w : World} (h : WInv w) {j : Nat} {m : Movable}
    (hm : w.movables[j]? = some m) {c : String} (hc : m.container = some c) :
    ∃ s, findStat w c = some s ∧ canHold s.stype m.mtype = true := by
  have hi := winv_item h j
  simp only [itemOKB, hm, hc] at hi
  cases hf : findStat w c with
  | none => simp only [hf] at hi; simp at hi
  | some s =>
    simp only [hf, Bool.and_eq_true] at hi
    exact ⟨s, rfl, hi.2.1⟩

theorem winv_shelf_level {w : World} (h : WInv w) {j : Nat} {m : Movable}
    (hm : w.movables[j]? = some m) {c : String} (hc : m.container = some c)
    {s : Stationary} (hf : findStat w c = some s)
    (hsh : s.stype = StatType.shelf) :
    ∃ l, m.level = some l ∧ 1 ≤ l ∧ l ≤ s.levels := by
  have hi := winv_item h j
  simp only [itemOKB, hm, hc, hf, Bool.and_eq_true] at hi
  have h2 := hi.2.2
  rw [if_pos (by simp [hsh])] at h2
  cases hl : m.level with
  | none => rw [hl] at h2; simp at h2
  | some l =>
    rw [hl] at h2
    simp only [Bool.and_eq_true, decide_eq_true_eq] at h2
    exact ⟨l, rfl, h2.1, h2.2⟩

theorem winv_shelf_maxlevels {w : World} (h : WInv w) {s : Stationary}
    (hs : s ∈ allStats w) (hsh : s.stype = StatType.shelf) : s.levels ≤ 10 := by
  have hk := winv_stat h hs
  simp only [statOKB, Bool.and_eq_true] at hk
  have h1 := hk.1
  rw [if_pos (by simp [hsh])] at h1
  simp only [Bool.and_eq_true, decide_eq_true_eq] at h1
  exact h1.2

theorem winv_tv_channel {w : World} (h : WInv w) {s : Stationary}
    (hs : s ∈ allStats w) (htv : s.stype = StatType.tv) : s.channel < 6 := by
  have hk := winv_stat h hs
  simp only [statOKB, Bool.and_eq_true] at hk
  have h1 := hk.2
  rw [if_pos (by simp [htv])] at h1
  simpa using h1

/-- Every symbol referenced by an init predicate of a well-formed
world is among the declared objects. -/
theorem initArgs_subset_objNames (w : World) (h : WInv w) :
    ∀ p ∈ initConds w, ∀ a ∈ p.args, a ∈ objNames w := by
  intro p hp a ha
  simp only [initConds, List.mem_append] at hp
  rcases hp with (hp | hp) | hp
  · cases hpi : w.personItem with
    | none =>
      simp only [personInit, hpi, List.mem_singleton] at hp
      subst hp
      simp only [List.mem_singleton] at ha
      subst ha
      exact me_mem_objNames w
    | some i => simp only [personInit, hpi] at hp; simp at hp
  · simp only [List.mem_flatMap] at hp
    obtain ⟨r, hr, s, hs, hps⟩ := hp
    have hsmem : s ∈ allStats w := by
      simp only [allStats, List.mem_flatMap]
      exact ⟨r, hr, hs⟩
    simp only [statInit, List.mem_cons] at hps
    rcases hps with hps | hps
    · subst hps
      simp only [List.mem_cons, List.mem_singleton] at ha
      rcases ha with ha | ha | ha
      · subst ha; exact room_mem_objNames hr
      · subst ha; exact stat_mem_objNames hsmem
      · simp at ha
    · cases hst : s.stype with
      | shelf =>
        rw [hst] at hps
        simp only [List.mem_map, List.mem_range] at hps
        obtain ⟨i, hilt, hpi⟩ := hps
        subst hpi
        simp only [List.mem_cons, List.mem_singleton] at ha
        rcases ha with ha | ha | ha
        · subst ha; exact stat_mem_objNames hsmem
        · subst ha
          exact level_mem_objNames w (by omega)
            (by have := winv_shelf_maxlevels h hsmem hst; omega)
        · simp at ha
      | sink =>
        rw [hst] at hps
        simp only [sinkSpecialInit] at hps
        by_cases ho : s.isOn = true
        · rw [if_pos ho] at hps
          simp only [List.mem_singleton] at hps
          subst hps
          simp only [List.mem_singleton] at ha
          subst ha; exact stat_mem_objNames hsmem
        · rw [if_neg ho] at hps; simp at hps
      | window =>
        rw [hst] at hps
        simp only [windowSpecialInit] at hps
        by_cases ho : s.isOn = true
        · rw [if_pos ho] at hps
          simp only [List.mem_singleton] at hps
          subst hps
          simp only [List.mem_singleton] at ha
          subst ha; exact stat_mem_objNames hsmem
        · rw [if_neg ho] at hps; simp at hps
      | light =>
        rw [hst] at hps
        simp only [lightSpecialInit] at hps
        by_cases ho : s.isOn = true
        · rw [if_pos ho] at hps
          simp only [List.mem_singleton] at hps
          subst hps
          simp only [List.mem_singleton] at ha
          subst ha; exact stat_mem_objNames hsmem
        · rw [if_neg ho] at hps; simp at hps
      | tv =>
        rw [hst] at hps
        simp only [tvSpecialInit] at hps
        by_cases ho : s.isOn = true
        · rw [if_pos ho] at hps
          simp only [List.mem_cons, List.not_mem_nil, or_false] at hps
          rcases hps with hps | hps
          · subst hps
            simp only [List.mem_singleton] at ha
            subst ha; exact stat_mem_objNames hsmem
          · subst hps
            simp only [List.mem_cons, List.not_mem_nil, or_false] at ha
            rcases ha with ha | ha
            · subst ha; exact stat_mem_objNames hsmem
            · subst ha
              exact channel_mem_objNames w (winv_tv_channel h hsmem hst)
        · rw [if_neg ho] at hps; simp at hps
      | table => rw [hst] at hps; simp at hps
      | fridge => rw [hst] at hps; simp at hps
  · simp only [List.mem_flatMap] at hp
    obtain ⟨m, hm, hpm⟩ := hp
    rcases List.mem_append.mp hpm with hpl | hpr
    · cases hc : m.container with
      | none =>
        simp only [movInit, hc, List.mem_singleton] at hpl
        subst hpl
        simp only [List.mem_cons, List.not_mem_nil, or_false] at ha
        rcases ha with ha | ha
        · subst ha; exact me_mem_objNames w
        · subst ha; exact mov_mem_objNames hm
      | some c =>
        obtain ⟨j, hj⟩ := List.mem_iff_getElem?.mp hm
        obtain ⟨s, hf, hch⟩ := winv_contained h hj hc
        simp only [movInit, hc, hf, List.mem_singleton] at hpl
        subst hpl
        have hsmem : s ∈ allStats w := List.mem_of_find?_eq_some hf
        simp only [containsPred] at ha
        by_cases hsh : s.stype = StatType.shelf
        · rw [if_pos (by simp [hsh])] at ha
          simp only [List.mem_append, List.mem_cons, List.not_mem_nil, or_false] at ha
          rcases ha with (ha | ha) | ha
          · subst ha; exact stat_mem_objNames hsmem
          · subst ha; exact mov_mem_objNames hm
          · subst ha
            obtain ⟨l, hl, hl1, hl2⟩ := winv_shelf_level h hj hc hf hsh
            rw [hl]
            have := winv_shelf_maxlevels h hsmem hsh
            exact level_mem_objNames w (by simpa using hl1)
              (by simp only [Option.getD_some]; omega)
        · rw [if_neg (by simp [hsh])] at ha
          simp only [List.append_nil, List.mem_cons, List.not_mem_nil, or_false] at ha
          rcases ha with ha | ha
          · subst ha; exact stat_mem_objNames hsmem
          · subst ha; exact mov_mem_objNames hm
    · by_cases hrg : (m.mtype == MovType.phone && m.ringing) = true
      · rw [if_pos hrg] at hpr
        simp only [List.mem_singleton] at hpr
        subst hpr
        simp only [List.mem_singleton] at ha
        subst ha; exact mov_mem_objNames hm
      · rw [if_neg hrg] at hpr
        simp at hpr

/-- C6: for every world satisfying the invariant, the set of symbols
declared in the problem's objects section is a superset of every object
symbol referenced in any init predicate; shelf level symbols and TV
channel symbols are covered by the static objects declared once per
type regardless of instance count. -/
theorem objects_superset_of_init (w : World) (h : WInv w) :
    ∀ p ∈ initConds w, ∀ a ∈ p.args, a ∈ objNames w :=
  initArgs_subset_objNames w h

/-- Witness for C6: the sample world satisfies the invariant and a
concrete init symbol is among the declared objects. -/
theorem objects_superset_of_init_witness :
    "apple" ∈ objNames sampleWorld :=
  objects_superset_of_init sampleWorld (by decide)
    ⟨"fridge-contains", ["kitchen-fridge", "apple"]⟩ (by decide) "apple" (by decide)

/-! ## Characterizing the shapes of init predicates -/

theorem mem_flatMap_getElem? {l : List α} {f : α → List β} {b : β}
    (h : b ∈ l.flatMap f) : ∃ (j : Nat) (a : α), l[j]? = some a ∧ b ∈ f a := by
  obtain ⟨a, ha, hb⟩ := List.mem_flatMap.mp h
  obtain ⟨j, hj⟩ := List.mem_iff_getElem?.mp ha
  exact ⟨j, a, hj, hb⟩

theorem statInit_names {rt : RoomType} {rn : String} {s : Stationary} {p : InitPred}
    (hp : p ∈ statInit rt rn s) :
    p.name = "in-" ++ roomTypeName rt ∨ p.name = "shelf-has-level" ∨
    p.name = "faucet-on" ∨ p.name = "window-open" ∨ p.name = "light-on" ∨
    p.name = "tv-on" ∨ p.name = "tv-playing-channel" := by
  simp only [statInit, List.mem_cons] at hp
  rcases hp with hp | hp
  · subst hp; exact Or.inl rfl
  · cases hst : s.stype with
    | shelf =>
      rw [hst] at hp
      simp only [List.mem_map] at hp
      obtain ⟨i, _, hq⟩ := hp
      rw [← hq]
      exact Or.inr (Or.inl rfl)
    | sink =>
      rw [hst] at hp
      simp only [sinkSpecialInit] at hp
      by_cases ho : s.isOn = true
      · rw [if_pos ho, List.mem_singleton] at hp
        rw [hp]; exact Or.inr (Or.inr (Or.inl rfl))
      · rw [if_neg ho] at hp; simp at hp
    | window =>
      rw [hst] at hp
      simp only [windowSpecialInit] at hp
      by_cases ho : s.isOn = true
      · rw [if_pos ho, List.mem_singleton] at hp
        rw [hp]; exact Or.inr (Or.inr (Or.inr (Or.inl rfl)))
      · rw [if_neg ho] at hp; simp at hp
    | light =>
      rw [hst] at hp
      simp only [lightSpecialInit] at hp
      by_cases ho : s.isOn = true
      · rw [if_pos ho, List.mem_singleton] at hp
        rw [hp]; exact Or.inr (Or.inr (Or.inr (Or.inr (Or.inl rfl))))
      · rw [if_neg ho] at hp; simp at hp
    | tv =>
      rw [hst] at hp
      simp only [tvSpecialInit] at hp
      by_cases ho : s.isOn = true
      · rw [if_pos ho] at hp
        simp only [List.mem_cons, List.not_mem_nil, or_false] at hp
        rcases hp with hp | hp
        · rw [hp]; exact Or.inr (Or.inr (Or.inr (Or.inr (Or.inr (Or.inl rfl)))))
        · rw [hp]; exact Or.inr (Or.inr (Or.inr (Or.inr (Or.inr (Or.inr rfl)))))
      · rw [if_neg ho] at hp; simp at hp
    | table => rw [hst] at hp; simp at hp
    | fridge => rw [hst] at hp; simp at hp

theorem statInit_name_safe {rt : RoomType} {rn : String} {s : Stationary}
    {p : InitPred} (hp : p ∈ statInit rt rn s) :
    p.name ∉ containsNames ∧ p.name ≠ "hand-empty" := by
  have hn := statInit_names hp
  cases rt <;> rcases hn with hn | hn | hn | hn | hn | hn | hn <;> rw [hn] <;>
    exact (by decide)

theorem movInit_mem {w : World} {m : Movable} {p : InitPred}
    (hp : p ∈ movInit w m) :
    (m.container = none ∧ p = ⟨"in-hand", ["me", m.pddlName]⟩) ∨
    (∃ c s, m.container = some c ∧ findStat w c = some s ∧ p = containsPred s m) ∨
    p = ⟨"phone-ringing", [m.pddlName]⟩ := by
  rcases List.mem_append.mp hp with hp1 | hp2
  · cases hc : m.container with
    | none =>
      simp only [hc, List.mem_singleton] at hp1
      exact Or.inl ⟨rfl, hp1⟩
    | some c =>
      simp only [hc] at hp1
      cases hf : findStat w c with
      | none => simp only [hf] at hp1; simp at hp1
      | some s =>
        simp only [hf, List.mem_singleton] at hp1
        exact Or.inr (Or.inl ⟨c, s, rfl, hf, hp1⟩)
  · by_cases hrg : (m.mtype == MovType.phone && m.ringing) = true
    · rw [if_pos hrg, List.mem_singleton] at hp2
      exact Or.inr (Or.inr hp2)
    · rw [if_neg hrg] at hp2; simp at hp2

theorem movInit_name_not_handEmpty {w : World} {m : Movable} {p : InitPred}
    (hp : p ∈ movInit w m) : p.name ≠ "hand-empty" := by
  rcases movInit_mem hp with ⟨_, hq⟩ | ⟨c, s, _, _, hq⟩ | hq
  · rw [hq]; show "in-hand" ≠ "hand-empty"; decide
  · rw [hq]
    simp only [containsPred]
    cases hs : s.stype <;> decide
  · rw [hq]; show "phone-ringing" ≠ "hand-empty"; decide

/-- The world state right after MovableItem.perform_action succeeds on
item i: the person holds i, whose container and location are cleared. -/
def pickedWorld (w : World) (i : Nat) : World :=
  { w with personItem := some i,
           movables := updIdx w.movables i
             (fun x => { x with container := none, level := none }) }

/-- C4: with an empty hand and item i inside container c, the current
init contains the container's contains predicate for i together with
hand-empty; after the pick-up succeeds, the regenerated init contains
in-hand for the person and i, contains no container-contains predicate
mentioning i, and hand-empty is absent.  The two disjointness
hypotheses say the item's symbol is not reused as a container or level
symbol. -/
theorem pickup_init_roundtrip (w : World) (h : WInv w) (i : Nat) {m : Movable}
    (hp : w.personItem = none) (hm : w.movables[i]? = some m)
    {c : String} (hc : m.container = some c)
    (hdisj : ∀ t ∈ allStats w, t.pddlName ≠ m.pddlName)
    (hlev : ∀ k, levelName k ≠ m.pddlName) :
    (InitPred.mk "hand-empty" ["me"] ∈ initConds w) ∧
    (∃ s, findStat w c = some s ∧ containsPred s m ∈ initConds w) ∧
    (pickUp w i = ActRes.act ("I picked up " ++ m.pddlName ++ ".") (pickedWorld w i) ∧
      InitPred.mk "in-hand" ["me", m.pddlName] ∈ initConds (pickedWorld w i) ∧
      InitPred.mk "hand-empty" ["me"] ∉ initConds (pickedWorld w i) ∧
      ∀ p ∈ initConds (pickedWorld w i),
        p.name ∈ containsNames → m.pddlName ∉ p.args) := by
  have hmem : m ∈ w.movables := List.mem_iff_getElem?.mpr ⟨i, hm⟩
  refine ⟨?_, ?_, ?_, ?_, ?_, ?_⟩
  · have h1 : InitPred.mk "hand-empty" ["me"] ∈ personInit w := by
      simp [personInit, hp]
    simp only [initConds, List.mem_append]
    exact Or.inl (Or.inl h1)
  · obtain ⟨s, hf, hch⟩ := winv_contained h hm hc
    refine ⟨s, hf, ?_⟩
    have h2 : containsPred s m ∈ movInit w m := by
      simp [movInit, hc, hf]
    simp only [initConds, List.mem_append]
    exact Or.inr (List.mem_flatMap.mpr ⟨m, hmem, h2⟩)
  · simp only [pickUp, pickedWorld, hp, hm, hc]
  · have hm2 : (pickedWorld w i).movables[i]? =
        some { m with container := none, level := none } :=
      getElem?_updIdx_self _ hm
    have hmm2 : ({ m with container := none, level := none } : Movable) ∈
        (pickedWorld w i).movables :=
      List.mem_iff_getElem?.mpr ⟨i, hm2⟩
    have hin : InitPred.mk "in-hand" ["me", m.pddlName] ∈
        movInit (pickedWorld w i) { m with container := none, level := none } := by
      simp [movInit]
    simp only [initConds, List.mem_append]
    exact Or.inr (List.mem_flatMap.mpr ⟨_, hmm2, hin⟩)
  · intro hcontra
    simp only [initConds, List.mem_append] at hcontra
    rcases hcontra with (hx | hx) | hx
    · simp [personInit, pickedWorld] at hx
    · simp only [List.mem_flatMap] at hx
      obtain ⟨r, hr, s2, hs2, hps⟩ := hx
      exact (statInit_name_safe hps).2 rfl
    · obtain ⟨m3, hm3, hpm3⟩ := List.mem_flatMap.mp hx
      exact movInit_name_not_handEmpty hpm3 rfl
  · intro p hpc hname hargs
    simp only [initConds, List.mem_append] at hpc
    rcases hpc with (hx | hx) | hx
    · simp [personInit, pickedWorld] at hx
    · simp only [List.mem_flatMap] at hx
      obtain ⟨r, hr, s2, hs2, hps⟩ := hx
      exact (statInit_name_safe hps).1 hname
    · obtain ⟨j, m3, hj3, hpm3⟩ := mem_flatMap_getElem? hx
      rcases movInit_mem hpm3 with ⟨hc3, hq⟩ | ⟨c3, s3, hc3, hf3, hq⟩ | hq
      · rw [hq] at hname
        have hni : ("in-hand" : String) ∉ containsNames := by decide
        exact hni hname
      · rw [hq] at hargs
        simp only [containsPred, List.mem_append, List.mem_cons,
          List.not_mem_nil, or_false] at hargs
        rcases hargs with (hax | hax) | hax
        · have hs3w : s3 ∈ allStats w := List.mem_of_find?_eq_some hf3
          exact hdisj s3 hs3w hax.symm
        · by_cases hji : j = i
          · subst hji
            simp only [pickedWorld] at hj3
            rw [getElem?_updIdx_self _ hm] at hj3
            have hm3eq : m3 = { m with container := none, level := none } :=
              Option.some.inj hj3.symm
            rw [hm3eq] at hc3
            exact Option.noConfusion hc3
          · have hj3w : w.movables[j]? = some m3 := by
              simp only [pickedWorld] at hj3
              rw [← getElem?_updIdx_ne w.movables
                (fun x => { x with container := none, level := none }) hji]
              exact hj3
            exact nodup_map_getElem?_ne (winv_movNodup h) hj3w hm hji hax.symm
        · by_cases hsh : (s3.stype == StatType.shelf) = true
          · rw [if_pos hsh] at hax
            simp only [List.mem_singleton] at hax
            exact hlev _ hax.symm
          · rw [if_neg hsh] at hax
            simp at hax
      · rw [hq] at hname
        have hni : ("phone-ringing" : String) ∉ containsNames := by decide
        exact hni hname

/-- A string strictly longer than another cannot equal it; levelName k
always has at least six characters. -/
theorem levelName_ne (s : String) (hs : s.length < 6) : ∀ k, levelName k ≠ s := by
  intro k he
  have hl : (levelName k).length = s.length := by rw [he]
  rw [levelName, String.length_append] at hl
  have h6 : ("level-" : String).length = 6 := by decide
  omega

/-- Witness for C4 on the sample world: all hypotheses are discharged
at the concrete input. -/
theorem pickup_init_roundtrip_witness :
    (InitPred.mk "hand-empty" ["me"] ∈ initConds sampleWorld) ∧
    (pickUp sampleWorld 0 =
      ActRes.act ("I picked up " ++ appleW.pddlName ++ ".") (pickedWorld sampleWorld 0)) ∧
    (InitPred.mk "in-hand" ["me", appleW.pddlName] ∈ initConds (pickedWorld sampleWorld 0)) ∧
    (InitPred.mk "hand-empty" ["me"] ∉ initConds (pickedWorld sampleWorld 0)) := by
  have hfull := pickup_init_roundtrip sampleWorld (by decide) 0 rfl rfl rfl
    (by decide) (fun k => levelName_ne "apple" (by decide) k)
  exact ⟨hfull.1, hfull.2.2.1, hfull.2.2.2.1, hfull.2.2.2.2.1⟩

/-! ## The world generator (placement engine) -/

/-- The choice oracles derandomizing the source's shared random stream:
a coin stream, a natural-draw stream, and a shuffle oracle.  Theorems
assume the shuffle oracle returns a permutation of its input. -/
structure GenCtx where
  coin : Nat → Bool
  rnd : Nat → Nat
  shuf : Nat → List Movable → List Movable

abbrev shufPerm (ctx : GenCtx) : Prop := ∀ k l, List.Perm (ctx.shuf k l) l

/-- The instance name of each stationary subtype as passed to its
constructor (sanitized as in StationaryItem.__init__). -/
def stName : StatType → String
  | .table => "table"
  | .shelf => "shelf"
  | .fridge => "fridge"
  | .sink => "sink"
  | .window => "window"
  | .light => "overhead-light"
  | .tv => "tv"

def isContainerType : StatType → Bool
  | .table => true
  | .shelf => true
  | .fridge => true
  | .sink => true
  | _ => false

/-- Container.generate_instance's selection loop: the shuffled holdable
list is popped from its end until the capacity cap is reached. -/
def chooseItems (shuffled : List Movable) (maxAllowed : Nat) : List Movable :=
  shuffled.reverse.take maxAllowed

/-- Assign each chosen item into the container named nm, drawing a
relative location (shelf level) per item from the oracle. -/
def placeAll (nm : String) (st : StatType) (levels : Nat) (ctx : GenCtx) :
    Nat → List Movable → List Movable
  | _, [] => []
  | k, m :: rest =>
    { m with container := some nm,
             level := if st == .shelf then some (1 + ctx.rnd k % levels) else none }
      :: placeAll nm st levels ctx (k + 1) rest

/-- The chosen items of one container generation. -/
def genChosen (ctx : GenCtx) (k : Nat) (st : StatType) (pool : List Movable)
    (maxAllowed : Nat) : List Movable :=
  chooseItems (ctx.shuf k (pool.filter (fun m => canHold st m.mtype))) maxAllowed

/-- StationaryItem generation for one item type inside one room: draws
the instance state from the oracles and, for a container, assigns up to
maxAllowed compatible movables from the shared pool (removing them from
it) with freshly drawn relative locations. -/
def genStationary (ctx : GenCtx) (k : Nat) (roomPddl : String) (st : StatType)
    (pool : List Movable) (maxAllowed : Nat) :
    Stationary × List Movable × List Movable :=
  let nm := roomPddl ++ "-" ++ stName st
  let levels := if st == .shelf then 3 + ctx.rnd k % 8 else 0
  let s : Stationary := ⟨nm, st, levels, ctx.coin k, ctx.rnd (k + 1) % 6⟩
  if isContainerType st then
    let chosen := genChosen ctx k st pool maxAllowed
    (s, placeAll nm st levels ctx (k + 2) chosen,
      chosen.foldl (fun acc x => acc.erase x) pool)
  else (s, [], pool)

theorem perm_append_foldl_erase [DecidableEq α] :
    ∀ (c l : List α), c.Nodup → (∀ x ∈ c, x ∈ l) →
      List.Perm l (c ++ c.foldl (fun acc x => acc.erase x) l)
  | [], l, _, _ => by simp
  | a :: c, l, hnd, hsub => by
    have ha : a ∈ l := hsub a (List.mem_cons_self a c)
    have hnd2 := List.nodup_cons.mp hnd
    have hsub2 : ∀ x ∈ c, x ∈ l.erase a := by
      intro x hx
      refine (List.mem_erase_of_ne ?_).mpr (hsub x (List.mem_cons_of_mem _ hx))
      intro he
      subst he
      exact hnd2.1 hx
    have ih := perm_append_foldl_erase c (l.erase a) hnd2.2 hsub2
    have h1 : List.Perm l (a :: l.erase a) := List.perm_cons_erase ha
    exact h1.trans (List.Perm.cons a ih)

theorem chooseItems_sublist (shuffled : List Movable) (maxAllowed : Nat) :
    ∀ x ∈ chooseItems shuffled maxAllowed, x ∈ shuffled := by
  intro x hx
  rw [chooseItems] at hx
  exact List.mem_reverse.mp (List.mem_of_mem_take hx)

theorem genChosen_nodup (ctx : GenCtx) (hshuf : shufPerm ctx) (k : Nat)
    (st : StatType) (pool : List Movable) (maxAllowed : Nat)
    (hnd : pool.Nodup) : (genChosen ctx k st pool maxAllowed).Nodup := by
  have h1 : (pool.filter (fun m => canHold st m.mtype)).Nodup := hnd.filter _
  have h2 : (ctx.shuf k (pool.filter (fun m => canHold st m.mtype))).Nodup :=
    ((hshuf k _).nodup_iff).mpr h1
  rw [genChosen, chooseItems]
  exact (List.take_sublist _ _).nodup (List.nodup_reverse.mpr h2)

theorem genChosen_mem (ctx : GenCtx) (hshuf : shufPerm ctx) (k : Nat)
    (st : StatType) (pool : List Movable) (maxAllowed : Nat) :
    ∀ x ∈ genChosen ctx k st pool maxAllowed,
      x ∈ pool ∧ canHold st x.mtype = true := by
  intro x hx
  have h1 : x ∈ ctx.shuf k (pool.filter (fun m => canHold st m.mtype)) :=
    chooseItems_sublist _ _ x hx
  have h2 : x ∈ pool.filter (fun m => canHold st m.mtype) :=
    ((hshuf k _).mem_iff).mp h1
  have h3 := List.mem_filter.mp h2
  exact ⟨h3.1, h3.2⟩

theorem placeAll_spec (nm : String) (st : StatType) (levels : Nat) (ctx : GenCtx)
    (hlev : (st == StatType.shelf) = true → 0 < levels) :
    ∀ (k : Nat) (c : List Movable) (p : Movable),
      p ∈ placeAll nm st levels ctx k c →
      p.container = some nm ∧
      (∃ x ∈ c, p.mtype = x.mtype ∧ p.pddlName = x.pddlName) ∧
      ((st == StatType.shelf) = true →
        ∃ l, p.level = some l ∧ 1 ≤ l ∧ l ≤ levels) := by
  intro k c
  induction c generalizing k with
  | nil => intro p hp; simp [placeAll] at hp
  | cons a c ih =>
    intro p hp
    rw [placeAll] at hp
    rcases List.mem_cons.mp hp with hp | hp
    · subst hp
      refine ⟨rfl, ⟨a, List.mem_cons_self a c, rfl, rfl⟩, ?_⟩
      intro hsh
      have hl := hlev hsh
      refine ⟨1 + ctx.rnd k % levels, ?_, by omega, ?_⟩
      · simp [hsh]
      · have := Nat.mod_lt (ctx.rnd k) hl
        omega
    · obtain ⟨h1, ⟨x, hx, h2⟩, h3⟩ := ih (k + 1) p hp
      exact ⟨h1, ⟨x, List.mem_cons_of_mem _ hx, h2⟩, h3⟩

theorem placeAll_map_names (nm : String) (st : StatType) (levels : Nat)
    (ctx : GenCtx) : ∀ (k : Nat) (c : List Movable),
    (placeAll nm st levels ctx k c).map (fun m => m.pddlName) =
      c.map (fun m => m.pddlName) := by
  intro k c
  induction c generalizing k with
  | nil => rfl
  | cons a c ih => simp [placeAll, ih]

theorem chooseItems_length (shuffled : List Movable) (maxAllowed : Nat) :
    (chooseItems shuffled maxAllowed).length ≤ maxAllowed := by
  rw [chooseItems]
  exact List.length_take_le _ _

theorem placeAll_length (nm : String) (st : StatType) (levels : Nat)
    (ctx : GenCtx) : ∀ (k : Nat) (c : List Movable),
    (placeAll nm st levels ctx k c).length = c.length := by
  intro k c
  induction c generalizing k with
  | nil => rfl
  | cons a c ih => simp [placeAll, ih]

/-- C7: at generation time a container instance is assigned at most its
capacity cap (maxAllowed; 2 at the call site) items, each satisfying
its can_hold predicate and drawn without replacement from the shared
unplaced pool, and a shelf's declared level count is within 3..10 with
every assigned level between 1 and that count. -/
theorem generation_capacity (ctx : GenCtx) (hshuf : shufPerm ctx) (k : Nat)
    (roomPddl : String) (st : StatType) (pool : List Movable)
    (maxAllowed : Nat) (hc : isContainerType st = true) (hnd : pool.Nodup) :
    ((genStationary ctx k roomPddl st pool maxAllowed).2.1.length ≤ maxAllowed) ∧
    (∀ p ∈ (genStationary ctx k roomPddl st pool maxAllowed).2.1,
       canHold st p.mtype = true ∧
       p.container = some (roomPddl ++ "-" ++ stName st)) ∧
    List.Perm pool (genChosen ctx k st pool maxAllowed ++
       (genStationary ctx k roomPddl st pool maxAllowed).2.2) ∧
    (st = StatType.shelf →
       3 ≤ (genStationary ctx k roomPddl st pool maxAllowed).1.levels ∧
       (genStationary ctx k roomPddl st pool maxAllowed).1.levels ≤ 10 ∧
       ∀ p ∈ (genStationary ctx k roomPddl st pool maxAllowed).2.1,
         ∃ l, p.level = some l ∧ 1 ≤ l ∧
           l ≤ (genStationary ctx k roomPddl st pool maxAllowed).1.levels) := by
  have hg : genStationary ctx k roomPddl st pool maxAllowed =
      (⟨roomPddl ++ "-" ++ stName st, st,
          (if st == StatType.shelf then 3 + ctx.rnd k % 8 else 0),
          ctx.coin k, ctx.rnd (k + 1) % 6⟩,
       placeAll (roomPddl ++ "-" ++ stName st) st
         (if st == StatType.shelf then 3 + ctx.rnd k % 8 else 0) ctx (k + 2)
         (genChosen ctx k st pool maxAllowed),
       (genChosen ctx k st pool maxAllowed).foldl
         (fun acc x => acc.erase x) pool) := by
    simp only [genStationary, if_pos hc]
  rw [hg]
  have hlevpos : (st == StatType.shelf) = true →
      0 < (if st == StatType.shelf then 3 + ctx.rnd k % 8 else 0) := by
    intro hsh
    rw [if_pos hsh]
    omega
  refine ⟨?_, ?_, ?_, ?_⟩
  · rw [placeAll_length]
    exact chooseItems_length _ _
  · intro p hp
    obtain ⟨h1, ⟨x, hx, hmt, _⟩, _⟩ := placeAll_spec _ _ _ _ hlevpos _ _ p hp
    have := (genChosen_mem ctx hshuf k st pool maxAllowed x hx).2
    rw [hmt]
    exact ⟨this, h1⟩
  · exact perm_append_foldl_erase _ _
      (genChosen_nodup ctx hshuf k st pool maxAllowed hnd)
      (fun x hx => (genChosen_mem ctx hshuf k st pool maxAllowed x hx).1)
  · intro hsh
    have hbeq : (st == StatType.shelf) = true := by simp [hsh]
    refine ⟨?_, ?_, ?_⟩
    · simp only [if_pos hbeq]; omega
    · simp only [if_pos hbeq]
      have := Nat.mod_lt (ctx.rnd k) (show 0 < 8 by omega)
      omega
    · intro p hp
      obtain ⟨_, _, h3⟩ := placeAll_spec _ _ _ _ hlevpos _ _ p hp
      exact h3 hbeq

/-- A trivial oracle used by witnesses: constant coins and draws, and
the identity shuffle. -/
def ctx0 : GenCtx := ⟨fun _ => false, fun _ => 0, fun _ l => l⟩

def freshApple : Movable := ⟨"apple", .food, none, none, false⟩

/-- Witness for C7 at a concrete container generation. -/
theorem generation_capacity_witness :
    ((genStationary ctx0 0 "kitchen" .fridge [freshApple] 2).2.1.length ≤ 2) ∧
    List.Perm [freshApple] (genChosen ctx0 0 .fridge [freshApple] 2 ++
      (genStationary ctx0 0 "kitchen" .fridge [freshApple] 2).2.2) := by
  have hfull := generation_capacity ctx0 (fun k l => List.Perm.refl l) 0
    "kitchen" .fridge [freshApple] 2 rfl (by decide)
  exact ⟨hfull.1, hfull.2.2.1⟩

/-- Room.can_hold of each room subtype: the kitchen accepts Fridge,
Sink and Light; the living room and a bedroom accept everything that is
not kitchen-only, plus the light. -/
def roomCanHold : RoomType → StatType → Bool
  | .kitchen, s => s == .fridge || s == .sink || s == .light
  | _, s => !(s == .fridge || s == .sink)

/-- The stationary types instantiated in a room, in registry order. -/
def statTypesFor (rt : RoomType) : List StatType :=
  [StatType.table, .shelf, .fridge, .sink, .window, .light, .tv].filter
    (roomCanHold rt)

structure StatsOut where
  stats : List Stationary
  placed : List Movable
  rest : List Movable
  kOut : Nat

/-- Room.generate_with_description's item loop: generate one stationary
item per holdable type, threading the shared movable pool. -/
def genStats (ctx : GenCtx) (roomPddl : String) :
    List StatType → Nat → List Movable → StatsOut
  | [], k, pool => ⟨[], [], pool, k⟩
  | st :: types, k, pool =>
    let r1 := genStationary ctx k roomPddl st pool 2
    let r2 := genStats ctx roomPddl types (k + 10) r1.2.2
    ⟨r1.1 :: r2.stats, r1.2.1 ++ r2.placed, r2.rest, r2.kOut⟩

structure RoomsOut where
  rooms : List Room
  placed : List Movable
  rest : List Movable
  kOut : Nat

/-- The room generation loop of DatasetGenerator.__init__, with the
generated room list given by its name/type sequence. -/
def genRooms (ctx : GenCtx) :
    List (String × RoomType) → Nat → List Movable → RoomsOut
  | [], k, pool => ⟨[], [], pool, k⟩
  | d :: ds, k, pool =>
    let r1 := genStats ctx d.1 (statTypesFor d.2) k pool
    let r2 := genRooms ctx ds r1.kOut r1.rest
    ⟨⟨d.1, d.2, r1.stats⟩ :: r2.rooms, r1.placed ++ r2.placed, r2.rest, r2.kOut⟩

/-- DatasetGenerator.__init__: generate the rooms (placing movables
into their containers) and keep as the generator's pool exactly the
placed items: every item still unplaced afterwards is removed from
movable_items. -/
def mkWorld (ctx : GenCtx) (pool0 : List Movable)
    (roomDefs : List (String × RoomType)) : World :=
  ⟨(genRooms ctx roomDefs 0 pool0).rooms,
   (genRooms ctx roomDefs 0 pool0).placed, none⟩

/-- The items never drawn into any room. -/
def unplacedItems (ctx : GenCtx) (pool0 : List Movable)
    (roomDefs : List (String × RoomType)) : List Movable :=
  (genRooms ctx roomDefs 0 pool0).rest

/-- Full specification of one stationary generation step. -/
theorem genStationary_spec (ctx : GenCtx) (hshuf : shufPerm ctx) (k : Nat)
    (roomPddl : String) (st : StatType) (pool : List Movable)
    (hnd : pool.Nodup) (hfresh : ∀ m ∈ pool, m.container = none) :
    (genStationary ctx k roomPddl st pool 2).1.stype = st ∧
    statOKB (genStationary ctx k roomPddl st pool 2).1 = true ∧
    (∀ p ∈ (genStationary ctx k roomPddl st pool 2).2.1,
       p.container = some (genStationary ctx k roomPddl st pool 2).1.pddlName ∧
       canHold st p.mtype = true ∧
       ((st == StatType.shelf) = true → ∃ l, p.level = some l ∧ 1 ≤ l ∧
          l ≤ (genStationary ctx k roomPddl st pool 2).1.levels)) ∧
    (∃ origs, List.Perm pool (origs ++ (genStationary ctx k roomPddl st pool 2).2.2) ∧
       (genStationary ctx k roomPddl st pool 2).2.1.map (fun m => m.pddlName) =
         origs.map (fun m => m.pddlName)) ∧
    (genStationary ctx k roomPddl st pool 2).2.2.Nodup ∧
    (∀ m ∈ (genStationary ctx k roomPddl st pool 2).2.2, m.container = none) := by
  have hstatok : statOKB (genStationary ctx k roomPddl st pool 2).1 = true := by
    simp only [genStationary]
    have hs1 : statOKB ⟨roomPddl ++ "-" ++ stName st, st,
        (if st == StatType.shelf then 3 + ctx.rnd k % 8 else 0),
        ctx.coin k, ctx.rnd (k + 1) % 6⟩ = true := by
      rw [statOKB]
      simp only [Bool.and_eq_true]
      constructor
      · by_cases hsh : (st == StatType.shelf) = true
        · rw [if_pos hsh, if_pos hsh]
          have := Nat.mod_lt (ctx.rnd k) (show 0 < 8 by omega)
          simp only [Bool.and_eq_true, decide_eq_true_eq]
          omega
        · rw [if_neg hsh]
      · by_cases htv : (st == StatType.tv) = true
        · rw [if_pos htv]
          have := Nat.mod_lt (ctx.rnd (k + 1)) (show 0 < 6 by omega)
          simp only [decide_eq_true_eq]
          omega
        · rw [if_neg htv]
    by_cases hct : isContainerType st = true
    · rw [if_pos hct]; exact hs1
    · rw [if_neg hct]; exact hs1
  by_cases hct : isContainerType st = true
  · have hg : genStationary ctx k roomPddl st pool 2 =
        (⟨roomPddl ++ "-" ++ stName st, st,
            (if st == StatType.shelf then 3 + ctx.rnd k % 8 else 0),
            ctx.coin k, ctx.rnd (k + 1) % 6⟩,
         placeAll (roomPddl ++ "-" ++ stName st) st
           (if st == StatType.shelf then 3 + ctx.rnd k % 8 else 0) ctx (k + 2)
           (genChosen ctx k st pool 2),
         (genChosen ctx k st pool 2).foldl (fun acc x => acc.erase x) pool) := by
      simp only [genStationary, if_pos hct]
    refine ⟨by rw [hg], hstatok, ?_, ?_, ?_, ?_⟩
    · rw [hg]
      intro p hp
      have hlevpos : (st == StatType.shelf) = true →
          0 < (if st == StatType.shelf then 3 + ctx.rnd k % 8 else 0) := by
        intro hsh; rw [if_pos hsh]; omega
      obtain ⟨h1, ⟨x, hx, hmt, _⟩, h3⟩ := placeAll_spec _ _ _ _ hlevpos _ _ p hp
      have hch := (genChosen_mem ctx hshuf k st pool 2 x hx).2
      rw [hmt]
      exact ⟨h1, hch, h3⟩
    · rw [hg]
      refine ⟨genChosen ctx k st pool 2, ?_, ?_⟩
      · exact perm_append_foldl_erase _ _
          (genChosen_nodup ctx hshuf k st pool 2 hnd)
          (fun x hx => (genChosen_mem ctx hshuf k st pool 2 x hx).1)
      · exact placeAll_map_names _ _ _ _ _ _
    · rw [hg]
      have hperm := perm_append_foldl_erase _ _
        (genChosen_nodup ctx hshuf k st pool 2 hnd)
        (fun x hx => (genChosen_mem ctx hshuf k st pool 2 x hx).1)
      have := hperm.nodup_iff.mp hnd
      exact (List.nodup_append.mp this).2.1
    · rw [hg]
      intro m hm
      have hperm := perm_append_foldl_erase _ _
        (genChosen_nodup ctx hshuf k st pool 2 hnd)
        (fun x hx => (genChosen_mem ctx hshuf k st pool 2 x hx).1)
      have hmp : m ∈ pool := hperm.mem_iff.mpr (List.mem_append_right _ hm)
      exact hfresh m hmp
  · have hg : genStationary ctx k roomPddl st pool 2 =
        (⟨roomPddl ++ "-" ++ stName st, st,
            (if st == StatType.shelf then 3 + ctx.rnd k % 8 else 0),
            ctx.coin k, ctx.rnd (k + 1) % 6⟩, [], pool) := by
      simp only [genStationary, if_neg hct]
    refine ⟨by rw [hg], hstatok, ?_, ?_, ?_, ?_⟩
    · rw [hg]; intro p hp; simp at hp
    · rw [hg]
      exact ⟨[], by simp, by simp⟩
    · rw [hg]; exact hnd
    · rw [hg]; exact hfresh

theorem find?_name_of_nodup {l : List Stationary}
    (h : (l.map (fun s => s.pddlName)).Nodup) {s : Stationary} (hs : s ∈ l) :
    l.find? (fun t => t.pddlName == s.pddlName) = some s := by
  induction l with
  | nil => simp at hs
  | cons a l ih =>
    rcases List.mem_cons.mp hs with hs1 | hs2
    · subst hs1
      simp [List.find?]
    · have hna : a.pddlName ≠ s.pddlName := by
        intro he
        have h2 := (List.nodup_cons.mp h).1
        have h3 : a.pddlName ∈ List.map (fun s => s.pddlName) l := by
          rw [he]
          exact List.mem_map_of_mem _ hs2
        exact h2 h3
      have hstep : (a.pddlName == s.pddlName) = false := by
        simp [hna]
      rw [List.find?]
      rw [hstep]
      exact ih (List.nodup_cons.mp h).2 hs2

theorem itemOKB_intro {w : World} {j : Nat} (hpi : w.personItem = none)
    (h : ∀ m, w.movables[j]? = some m → ∃ c s, m.container = some c ∧
      findStat w c = some s ∧ canHold s.stype m.mtype = true ∧
      ((s.stype == StatType.shelf) = true →
        ∃ l, m.level = some l ∧ 1 ≤ l ∧ l ≤ s.levels)) :
    itemOKB w j = true := by
  rw [itemOKB]
  cases hg : w.movables[j]? with
  | none => rfl
  | some m =>
    obtain ⟨c, s, hc, hf, hch, hsh⟩ := h m hg
    simp only [hc, hf, hpi, hch, Bool.and_eq_true, Bool.true_and]
    refine ⟨by simp, ?_⟩
    by_cases hb : (s.stype == StatType.shelf) = true
    · rw [if_pos hb]
      obtain ⟨l, hl, h1, h2⟩ := hsh hb
      rw [hl]
      simp only [Bool.and_eq_true, decide_eq_true_eq]
      exact ⟨h1, h2⟩
    · rw [if_neg hb]

theorem genStats_spec (ctx : GenCtx) (hshuf : shufPerm ctx) (roomPddl : String) :
    ∀ (types : List StatType) (k : Nat) (pool : List Movable),
      pool.Nodup → (∀ m ∈ pool, m.container = none) →
      (∀ s ∈ (genStats ctx roomPddl types k pool).stats, statOKB s = true) ∧
      (∀ p ∈ (genStats ctx roomPddl types k pool).placed,
         ∃ s ∈ (genStats ctx roomPddl types k pool).stats,
           p.container = some s.pddlName ∧ canHold s.stype p.mtype = true ∧
           ((s.stype == StatType.shelf) = true →
             ∃ l, p.level = some l ∧ 1 ≤ l ∧ l ≤ s.levels)) ∧
      (∃ origs, List.Perm pool (origs ++ (genStats ctx roomPddl types k pool).rest) ∧
         (genStats ctx roomPddl types k pool).placed.map (fun m => m.pddlName) =
           origs.map (fun m => m.pddlName)) ∧
      (genStats ctx roomPddl types k pool).rest.Nodup ∧
      (∀ m ∈ (genStats ctx roomPddl types k pool).rest, m.container = none) := by
  intro types
  induction types with
  | nil =>
    intro k pool hnd hfresh
    refine ⟨by simp [genStats], by simp [genStats], ⟨[], by simp [genStats], by simp [genStats]⟩,
      hnd, hfresh⟩
  | cons st types ih =>
    intro k pool hnd hfresh
    have spec1 := genStationary_spec ctx hshuf k roomPddl st pool hnd hfresh
    obtain ⟨hty1, hok1, hpl1, ⟨origs1, hperm1, hnames1⟩, hnd1, hfresh1⟩ := spec1
    have ih2 := ih (k + 10) (genStationary ctx k roomPddl st pool 2).2.2 hnd1 hfresh1
    obtain ⟨hok2, hpl2, ⟨origs2, hperm2, hnames2⟩, hnd2, hfresh2⟩ := ih2
    have heq : genStats ctx roomPddl (st :: types) k pool =
        ⟨(genStationary ctx k roomPddl st pool 2).1 ::
            (genStats ctx roomPddl types (k + 10)
              (genStationary ctx k roomPddl st pool 2).2.2).stats,
          (genStationary ctx k roomPddl st pool 2).2.1 ++
            (genStats ctx roomPddl types (k + 10)
              (genStationary ctx k roomPddl st pool 2).2.2).placed,
          (genStats ctx roomPddl types (k + 10)
            (genStationary ctx k roomPddl st pool 2).2.2).rest,
          (genStats ctx roomPddl types (k + 10)
            (genStationary ctx k roomPddl st pool 2).2.2).kOut⟩ := rfl
    rw [heq]
    refine ⟨?_, ?_, ?_, hnd2, hfresh2⟩
    · intro s hs
      rcases List.mem_cons.mp hs with hs1 | hs2
      · rw [hs1]; exact hok1
      · exact hok2 s hs2
    · intro p hp
      rcases List.mem_append.mp hp with hp1 | hp2
      · obtain ⟨h1, h2, h3⟩ := hpl1 p hp1
        refine ⟨(genStationary ctx k roomPddl st pool 2).1,
          List.mem_cons_self _ _, h1, ?_, ?_⟩
        · rw [hty1]; exact h2
        · intro hb
          rw [hty1] at hb
          exact h3 hb
      · obtain ⟨s, hs, hrest⟩ := hpl2 p hp2
        exact ⟨s, List.mem_cons_of_mem _ hs, hrest⟩
    · refine ⟨origs1 ++ origs2, ?_, ?_⟩
      · have step : List.Perm (origs1 ++ (genStationary ctx k roomPddl st pool 2).2.2)
            (origs1 ++ (origs2 ++ (genStats ctx roomPddl types (k + 10)
              (genStationary ctx k roomPddl st pool 2).2.2).rest)) :=
          List.Perm.append_left origs1 hperm2
        have := hperm1.trans step
        rw [← List.append_assoc] at this
        exact this
      · rw [List.map_append, List.map_append, hnames1, hnames2]

theorem genRooms_spec (ctx : GenCtx) (hshuf : shufPerm ctx) :
    ∀ (roomDefs : List (String × RoomType)) (k : Nat) (pool : List Movable),
      pool.Nodup → (∀ m ∈ pool, m.container = none) →
      (∀ r ∈ (genRooms ctx roomDefs k pool).rooms, ∀ s ∈ r.stats,
        statOKB s = true) ∧
      (∀ p ∈ (genRooms ctx roomDefs k pool).placed,
         ∃ r ∈ (genRooms ctx roomDefs k pool).rooms, ∃ s ∈ r.stats,
           p.container = some s.pddlName ∧ canHold s.stype p.mtype = true ∧
           ((s.stype == StatType.shelf) = true →
             ∃ l, p.level = some l ∧ 1 ≤ l ∧ l ≤ s.levels)) ∧
      (∃ origs, List.Perm pool (origs ++ (genRooms ctx roomDefs k pool).rest) ∧
         (genRooms ctx roomDefs k pool).placed.map (fun m => m.pddlName) =
           origs.map (fun m => m.pddlName)) ∧
      (genRooms ctx roomDefs k pool).rest.Nodup ∧
      (∀ m ∈ (genRooms ctx roomDefs k pool).rest, m.container = none) := by
  intro roomDefs
  induction roomDefs with
  | nil =>
    intro k pool hnd hfresh
    refine ⟨by simp [genRooms], by simp [genRooms],
      ⟨[], by simp [genRooms], by simp [genRooms]⟩, hnd, hfresh⟩
  | cons d ds ih =>
    intro k pool hnd hfresh
    have spec1 := genStats_spec ctx hshuf d.1 (statTypesFor d.2) k pool hnd hfresh
    obtain ⟨hok1, hpl1, ⟨origs1, hperm1, hnames1⟩, hnd1, hfresh1⟩ := spec1
    have ih2 := ih (genStats ctx d.1 (statTypesFor d.2) k pool).kOut
      (genStats ctx d.1 (statTypesFor d.2) k pool).rest hnd1 hfresh1
    obtain ⟨hok2, hpl2, ⟨origs2, hperm2, hnames2⟩, hnd2, hfresh2⟩ := ih2
    have heq : genRooms ctx (d :: ds) k pool =
        ⟨⟨d.1, d.2, (genStats ctx d.1 (statTypesFor d.2) k pool).stats⟩ ::
            (genRooms ctx ds (genStats ctx d.1 (statTypesFor d.2) k pool).kOut
              (genStats ctx d.1 (statTypesFor d.2) k pool).rest).rooms,
          (genStats ctx d.1 (statTypesFor d.2) k pool).placed ++
            (genRooms ctx ds (genStats ctx d.1 (statTypesFor d.2) k pool).kOut
              (genStats ctx d.1 (statTypesFor d.2) k pool).rest).placed,
          (genRooms ctx ds (genStats ctx d.1 (statTypesFor d.2) k pool).kOut
            (genStats ctx d.1 (statTypesFor d.2) k pool).rest).rest,
          (genRooms ctx ds (genStats ctx d.1 (statTypesFor d.2) k pool).kOut
            (genStats ctx d.1 (statTypesFor d.2) k pool).rest).kOut⟩ := rfl
    rw [heq]
    refine ⟨?_, ?_, ?_, hnd2, hfresh2⟩
    · intro r hr s hs
      rcases List.mem_cons.mp hr with hr1 | hr2
      · rw [hr1] at hs
        exact hok1 s hs
      · exact hok2 r hr2 s hs
    · intro p hp
      rcases List.mem_append.mp hp with hp1 | hp2
      · obtain ⟨s, hs, hrest⟩ := hpl1 p hp1
        exact ⟨_, List.mem_cons_self _ _, s, hs, hrest⟩
      · obtain ⟨r, hr, s, hs, hrest⟩ := hpl2 p hp2
        exact ⟨r, List.mem_cons_of_mem _ hr, s, hs, hrest⟩
    · refine ⟨origs1 ++ origs2, ?_, ?_⟩
      · have step := List.Perm.append_left origs1 hperm2
        have h3 := hperm1.trans step
        rw [← List.append_assoc] at h3
        exact h3
      · rw [List.map_append, List.map_append, hnames1, hnames2]

/-- The generated world satisfies the ownership invariant: the hand is
empty, every pool movable sits in a container of some generated room
that accepts its type (with a valid shelf level), stationary state is
sane, and names are unique (stationary-name uniqueness is the
decidable hypothesis hstatnd; movable names inherit uniqueness from the
initial pool). -/
theorem mkWorld_winv (ctx : GenCtx) (pool0 : List Movable)
    (roomDefs : List (String × RoomType)) (hshuf : shufPerm ctx)
    (hnd0 : (pool0.map (fun m => m.pddlName)).Nodup)
    (hfresh0 : ∀ m ∈ pool0, m.container = none)
    (hstatnd : ((allStats (mkWorld ctx pool0 roomDefs)).map
      (fun s => s.pddlName)).Nodup) :
    WInv (mkWorld ctx pool0 roomDefs) := by
  have hndrec : pool0.Nodup := hnd0.of_map
  have spec := genRooms_spec ctx hshuf roomDefs 0 pool0 hndrec hfresh0
  obtain ⟨hok, hpl, ⟨origs, hperm, hnames⟩, _, _⟩ := spec
  have hw : mkWorld ctx pool0 roomDefs =
      ⟨(genRooms ctx roomDefs 0 pool0).rooms,
       (genRooms ctx roomDefs 0 pool0).placed, none⟩ := rfl
  have hmovnd : ((mkWorld ctx pool0 roomDefs).movables.map
      (fun m => m.pddlName)).Nodup := by
    rw [hw]
    have hpermn := hperm.map (fun m => m.pddlName)
    rw [List.map_append] at hpermn
    have hall : (origs.map (fun m => m.pddlName) ++
        ((genRooms ctx roomDefs 0 pool0).rest.map (fun m => m.pddlName))).Nodup :=
      hpermn.nodup_iff.mp hnd0
    have horig := (List.nodup_append.mp hall).1
    show ((genRooms ctx roomDefs 0 pool0).placed.map (fun m => m.pddlName)).Nodup
    rw [hnames]
    exact horig
  rw [WInv, invB]
  simp only [Bool.and_eq_true]
  refine ⟨⟨⟨?_, ?_⟩, ?_⟩, ?_⟩
  · rw [hw]; rfl
  · rw [List.all_eq_true]
    intro j hj
    refine itemOKB_intro (by rw [hw]) ?_
    intro m hm
    have hmem : m ∈ (mkWorld ctx pool0 roomDefs).movables :=
      List.mem_iff_getElem?.mpr ⟨j, hm⟩
    rw [hw] at hmem
    obtain ⟨r, hr, s, hs, hcont, hch, hsh⟩ := hpl m hmem
    have hsall : s ∈ allStats (mkWorld ctx pool0 roomDefs) := by
      simp only [allStats, List.mem_flatMap]
      exact ⟨r, by rw [hw]; exact hr, hs⟩
    refine ⟨s.pddlName, s, hcont, ?_, hch, hsh⟩
    rw [findStat]
    exact find?_name_of_nodup hstatnd hsall
  · rw [List.all_eq_true]
    intro s hs
    simp only [allStats, List.mem_flatMap] at hs
    obtain ⟨r, hr, hsr⟩ := hs
    rw [hw] at hr
    exact hok r hr s hsr
  · rw [namesOKB]
    simp only [Bool.and_eq_true, decide_eq_true_eq]
    exact ⟨hstatnd, hmovnd⟩

/-! ## The action simulator -/

/-- Per-item random draws: coins for the inner interact-or-base retry
loops, one extra coin (the TV's keep-on choice), and one natural draw
(shelf level or TV channel). -/
structure ItemPlan where
  coins : List Bool
  coin : Bool
  lr : Nat
  deriving DecidableEq

/-- Per-room draws: the shuffled traversal order of the room's items
and one ItemPlan per visited item. -/
structure RoomPlan where
  order : List Nat
  plans : List ItemPlan
  deriving DecidableEq

/-- One iteration of generate_state_change's loop: the pool-choice
coin, the two randrange draws, and the nested plans. -/
structure StepPlan where
  branch : Bool
  roomPick : Nat
  roomPlan : RoomPlan
  movPick : Nat
  movPlan : ItemPlan
  deriving DecidableEq

/-- InteractableContainer.perform_action's retry loop (the sink): each
iteration draws a coin preferring the special interaction (which always
succeeds) over the container action; an exhausted modelled coin list
stands for the loop never returning. -/
def sinkLoop (w : World) (s : Stationary) (lr : Nat) : List Bool → ActRes
  | [] => .spin
  | c :: rest =>
    if c then sinkInteract w s
    else
      match placeInto w s lr with
      | .noop => sinkLoop w s lr rest
      | r => r

/-- MovableInteractable.perform_action's retry loop (the phone). -/
def phoneLoop (w : World) (i : Nat) : List Bool → ActRes
  | [] => .spin
  | c :: rest =>
    if c then phoneRing w i
    else
      match pickUp w i with
      | .noop => phoneLoop w i rest
      | r => r

/-- perform_action of one stationary item. -/
def stationaryPerform (w : World) (s : Stationary) (ip : ItemPlan) : ActRes :=
  match s.stype with
  | .table => placeInto w s ip.lr
  | .shelf => placeInto w s ip.lr
  | .fridge => placeInto w s ip.lr
  | .sink => sinkLoop w s ip.lr ip.coins
  | .window => toggleWindow w s
  | .light => toggleLight w s
  | .tv => tvGo w s ip.coin ip.lr

/-- perform_action of one pool movable. -/
def movPerform (w : World) (i : Nat) (ip : ItemPlan) : ActRes :=
  match w.movables[i]? with
  | none => .noop
  | some m => if m.mtype == MovType.phone then phoneLoop w i ip.coins else pickUp w i

/-- Room.perform_action: try the room's items in the planned order
until one acts. -/
def tryItems (w : World) (r : Room) : List (Nat × ItemPlan) → ActRes
  | [] => .noop
  | q :: rest =>
    match r.stats[q.1]? with
    | none => tryItems w r rest
    | some s =>
      match stationaryPerform w s q.2 with
      | .noop => tryItems w r rest
      | res => res

def tryRoomAt (w : World) (rIdx : Nat) (rp : RoomPlan) : ActRes :=
  match w.rooms[rIdx]? with
  | none => .noop
  | some r => tryItems w r (rp.order.zip rp.plans)

/-- Result of one generate_state_change invocation: the fatal assert on
two empty pools, the assert inside a pick-up, modelled divergence, or
the first non-null narration with the mutated world. -/
inductive GenRes where
  | fatal
  | spin
  | afail
  | out (narration : String) (w : World)
  deriving DecidableEq

/-- DatasetGenerator.generate_state_change: both candidate pools are
copied; each iteration asserts a pool is non-empty, by a coin pops a
room at a random index and tries it, then pops and tries a movable;
the first non-null action is returned.  The plan list bounds the
modelled iterations: exhausting it stands for divergence. -/
def genLoop (w : World) : List Nat → List Nat → List StepPlan → GenRes
  | _, _, [] => .spin
  | rooms, movs, p :: rest =>
    if rooms.isEmpty && movs.isEmpty then .fatal
    else
      match (if !rooms.isEmpty && p.branch then
               tryRoomAt w (rooms.getD (p.roomPick % rooms.length) 0) p.roomPlan
             else .noop) with
      | .act n w2 => .out n w2
      | .spin => .spin
      | .afail => .afail
      | .noop =>
        if movs.isEmpty then
          genLoop w
            (if !rooms.isEmpty && p.branch
             then rooms.eraseIdx (p.roomPick % rooms.length) else rooms)
            movs rest
        else
          match movPerform w (movs.getD (p.movPick % movs.length) 0) p.movPlan with
          | .act n w2 => .out n w2
          | .spin => .spin
          | .afail => .afail
          | .noop =>
            genLoop w
              (if !rooms.isEmpty && p.branch
               then rooms.eraseIdx (p.roomPick % rooms.length) else rooms)
              (movs.eraseIdx (p.movPick % movs.length)) rest

def genStateChange (w : World) (plans : List StepPlan) : GenRes :=
  genLoop w (List.range w.rooms.length) (List.range w.movables.length) plans

/-- One atomic perform_action application against w: the disjunction of
every state-mutating action the entities offer. -/
def AtomicStep (w : World) (n : String) (w2 : World) : Prop :=
  (∃ i, pickUp w i = .act n w2) ∨
  (∃ s lr, s ∈ allStats w ∧ placeInto w s lr = .act n w2) ∨
  (∃ s, s ∈ allStats w ∧ toggleWindow w s = .act n w2) ∨
  (∃ s, s ∈ allStats w ∧ toggleLight w s = .act n w2) ∨
  (∃ s, s ∈ allStats w ∧ sinkInteract w s = .act n w2) ∨
  (∃ s coin ch, s ∈ allStats w ∧ tvGo w s coin ch = .act n w2) ∨
  (∃ i, phoneRing w i = .act n w2)

theorem sinkLoop_out {w : World} {s : Stationary} {lr : Nat} {n : String}
    {w2 : World} : ∀ {coins : List Bool}, sinkLoop w s lr coins = .act n w2 →
    sinkInteract w s = .act n w2 ∨ ∃ lr2, placeInto w s lr2 = .act n w2
  | [], h => by rw [sinkLoop] at h; exact ActRes.noConfusion h
  | c :: rest, h => by
    rw [sinkLoop] at h
    by_cases hc : c = true
    · rw [if_pos hc] at h
      exact Or.inl h
    · rw [if_neg hc] at h
      cases hpl : placeInto w s lr with
      | noop =>
        rw [hpl] at h
        exact sinkLoop_out h
      | afail => rw [hpl] at h; exact ActRes.noConfusion h
      | spin => rw [hpl] at h; exact ActRes.noConfusion h
      | act n3 w3 =>
        rw [hpl] at h
        have he : ActRes.act n3 w3 = ActRes.act n w2 := h
        exact Or.inr ⟨lr, hpl.trans he⟩

theorem phoneLoop_out {w : World} {i : Nat} {n : String} {w2 : World} :
    ∀ {coins : List Bool}, phoneLoop w i coins = .act n w2 →
    phoneRing w i = .act n w2 ∨ ∃ i2, pickUp w i2 = .act n w2
  | [], h => by rw [phoneLoop] at h; exact ActRes.noConfusion h
  | c :: rest, h => by
    rw [phoneLoop] at h
    by_cases hc : c = true
    · rw [if_pos hc] at h
      exact Or.inl h
    · rw [if_neg hc] at h
      cases hpl : pickUp w i with
      | noop =>
        rw [hpl] at h
        exact phoneLoop_out h
      | afail => rw [hpl] at h; exact ActRes.noConfusion h
      | spin => rw [hpl] at h; exact ActRes.noConfusion h
      | act n3 w3 =>
        rw [hpl] at h
        have he : ActRes.act n3 w3 = ActRes.act n w2 := h
        exact Or.inr ⟨i, hpl.trans he⟩

theorem stationaryPerform_out {w : World} {s : Stationary} {ip : ItemPlan}
    {n : String} {w2 : World} (hs : s ∈ allStats w)
    (h : stationaryPerform w s ip = .act n w2) : AtomicStep w n w2 := by
  rw [stationaryPerform] at h
  cases hst : s.stype with
  | table => rw [hst] at h; exact Or.inr (Or.inl ⟨s, ip.lr, hs, h⟩)
  | shelf => rw [hst] at h; exact Or.inr (Or.inl ⟨s, ip.lr, hs, h⟩)
  | fridge => rw [hst] at h; exact Or.inr (Or.inl ⟨s, ip.lr, hs, h⟩)
  | sink =>
    rw [hst] at h
    rcases sinkLoop_out h with h2 | ⟨lr2, h2⟩
    · exact Or.inr (Or.inr (Or.inr (Or.inr (Or.inl ⟨s, hs, h2⟩))))
    · exact Or.inr (Or.inl ⟨s, lr2, hs, h2⟩)
  | window => rw [hst] at h; exact Or.inr (Or.inr (Or.inl ⟨s, hs, h⟩))
  | light => rw [hst] at h; exact Or.inr (Or.inr (Or.inr (Or.inl ⟨s, hs, h⟩)))
  | tv =>
    rw [hst] at h
    exact Or.inr (Or.inr (Or.inr (Or.inr (Or.inr (Or.inl ⟨s, ip.coin, ip.lr, hs, h⟩)))))

theorem movPerform_out {w : World} {i : Nat} {ip : ItemPlan} {n : String}
    {w2 : World} (h : movPerform w i ip = .act n w2) : AtomicStep w n w2 := by
  rw [movPerform] at h
  cases hg : w.movables[i]? with
  | none =>
    simp only [hg] at h
    exact ActRes.noConfusion h
  | some m =>
    simp only [hg] at h
    by_cases hph : (m.mtype == MovType.phone) = true
    · rw [if_pos hph] at h
      rcases phoneLoop_out h with h2 | ⟨i2, h2⟩
      · exact Or.inr (Or.inr (Or.inr (Or.inr (Or.inr (Or.inr ⟨i, h2⟩)))))
      · exact Or.inl ⟨i2, h2⟩
    · rw [if_neg hph] at h
      exact Or.inl ⟨i, h⟩

theorem tryItems_out {w : World} {r : Room} (hr : r ∈ w.rooms) {n : String}
    {w2 : World} : ∀ {l : List (Nat × ItemPlan)},
    tryItems w r l = .act n w2 → AtomicStep w n w2
  | [], h => by rw [tryItems] at h; exact ActRes.noConfusion h
  | q :: rest, h => by
    rw [tryItems] at h
    cases hg : r.stats[q.1]? with
    | none =>
      simp only [hg] at h
      exact tryItems_out hr h
    | some s =>
      simp only [hg] at h
      have hsmem : s ∈ allStats w := by
        simp only [allStats, List.mem_flatMap]
        exact ⟨r, hr, List.mem_iff_getElem?.mpr ⟨q.1, hg⟩⟩
      cases hperf : stationaryPerform w s q.2 with
      | noop =>
        rw [hperf] at h
        exact tryItems_out hr h
      | afail => rw [hperf] at h; exact ActRes.noConfusion h
      | spin => rw [hperf] at h; exact ActRes.noConfusion h
      | act n3 w3 =>
        rw [hperf] at h
        have he : ActRes.act n3 w3 = ActRes.act n w2 := h
        exact stationaryPerform_out hsmem (hperf.trans he)

theorem tryRoomAt_out {w : World} {rIdx : Nat} {rp : RoomPlan} {n : String}
    {w2 : World} (h : tryRoomAt w rIdx rp = .act n w2) : AtomicStep w n w2 := by
  rw [tryRoomAt] at h
  cases hg : w.rooms[rIdx]? with
  | none =>
    simp only [hg] at h
    exact ActRes.noConfusion h
  | some r =>
    simp only [hg] at h
    exact tryItems_out (List.mem_iff_getElem?.mpr ⟨rIdx, hg⟩) h

theorem genLoop_out {w : World} {n : String} {w2 : World} :
    ∀ {plans : List StepPlan} {rooms movs : List Nat},
    genLoop w rooms movs plans = .out n w2 → AtomicStep w n w2
  | [], rooms, movs, h => by rw [genLoop] at h; exact GenRes.noConfusion h
  | p :: rest, rooms, movs, h => by
    rw [genLoop] at h
    by_cases hemp : (rooms.isEmpty && movs.isEmpty) = true
    · rw [if_pos hemp] at h; exact GenRes.noConfusion h
    · rw [if_neg hemp] at h
      cases hres : (if !rooms.isEmpty && p.branch then
          tryRoomAt w (rooms.getD (p.roomPick % rooms.length) 0) p.roomPlan
        else ActRes.noop) with
      | act n3 w3 =>
        rw [hres] at h
        have hout : GenRes.out n3 w3 = GenRes.out n w2 := h
        have he : ActRes.act n3 w3 = ActRes.act n w2 := by
          injection hout with e1 e2
          rw [e1, e2]
        by_cases hpick : (!rooms.isEmpty && p.branch) = true
        · rw [if_pos hpick] at hres
          exact tryRoomAt_out (hres.trans he)
        · rw [if_neg hpick] at hres
          exact ActRes.noConfusion hres
      | spin => rw [hres] at h; exact GenRes.noConfusion h
      | afail => rw [hres] at h; exact GenRes.noConfusion h
      | noop =>
        rw [hres] at h
        by_cases hme : movs.isEmpty = true
        · rw [if_pos hme] at h
          exact genLoop_out h
        · rw [if_neg hme] at h
          cases hmov : movPerform w (movs.getD (p.movPick % movs.length) 0)
              p.movPlan with
          | act n3 w3 =>
            rw [hmov] at h
            have hout : GenRes.out n3 w3 = GenRes.out n w2 := h
            have he : ActRes.act n3 w3 = ActRes.act n w2 := by
              injection hout with e1 e2
              rw [e1, e2]
            exact movPerform_out (hmov.trans he)
          | spin => rw [hmov] at h; exact GenRes.noConfusion h
          | afail => rw [hmov] at h; exact GenRes.noConfusion h
          | noop =>
            rw [hmov] at h
            exact genLoop_out h

/-- C2: each invocation of generate_state_change that returns a
narration has applied exactly one state-mutating perform_action (the
first candidate whose action returned non-null), and when both
candidate pools are exhausted the loop's assert aborts generation
fatally instead of returning null. -/
theorem state_change_one_action_or_fatal (w : World) (rooms movs : List Nat)
    (plans : List StepPlan) (p : StepPlan) (ps : List StepPlan) :
    (∀ n w2, genLoop w rooms movs plans = .out n w2 → AtomicStep w n w2) ∧
    genLoop w [] [] (p :: ps) = .fatal := by
  constructor
  · intro n w2 h
    exact genLoop_out h
  · rw [genLoop]
    rfl

def ip0 : ItemPlan := ⟨[], false, 0⟩

def plan0 : StepPlan := ⟨false, 0, ⟨[], []⟩, 0, ip0⟩

/-- Witness for C2: a concrete run that picks up the apple, and the
fatal result on two exhausted pools. -/
theorem state_change_one_action_or_fatal_witness :
    AtomicStep sampleWorld "I picked up apple." (pickedWorld sampleWorld 0) ∧
    genLoop sampleWorld [] [] [plan0] = GenRes.fatal := by
  have h := state_change_one_action_or_fatal sampleWorld [0] [0] [plan0] plan0 []
  exact ⟨h.1 "I picked up apple." (pickedWorld sampleWorld 0) (by decide), h.2⟩

/-! ## Eligibility: which candidates can act -/

/-- A stationary item can act right now: interactables always can, a
container can when the person holds a compatible item. -/
def StatEligB (w : World) (s : Stationary) : Bool :=
  match s.stype with
  | .window => true
  | .light => true
  | .tv => true
  | .sink => true
  | _ =>
    match w.personItem with
    | none => false
    | some i =>
      match w.movables[i]? with
      | none => false
      | some m => canHold s.stype m.mtype

/-- A pool movable can act right now: a phone always can (its interact
always succeeds), any other can be picked up when the hand is empty. -/
def MovEligB (w : World) (m : Movable) : Bool :=
  m.mtype == MovType.phone || w.personItem == none

/-- The room pool entry rIdx has some item that can act. -/
def roomEligAt (w : World) (rIdx : Nat) : Bool :=
  match w.rooms[rIdx]? with
  | none => false
  | some r => r.stats.any (fun s => StatEligB w s)

/-- The movable pool entry i can act. -/
def movEligAt (w : World) (i : Nat) : Bool :=
  match w.movables[i]? with
  | none => false
  | some m => MovEligB w m

/-- At least one candidate in the given pools can act. -/
def EligB (w : World) (rooms movs : List Nat) : Bool :=
  rooms.any (roomEligAt w) || movs.any (movEligAt w)

/-- A fair item plan: its inner retry loop eventually prefers the
always-succeeding interaction. -/
abbrev GoodItemPlan (ip : ItemPlan) : Prop := true ∈ ip.coins

/-- A fair room plan: all inner plans are fair, there are enough of
them, and the traversal order covers every item index of every room. -/
abbrev GoodRoomPlan (w : World) (rp : RoomPlan) : Prop :=
  (∀ ip ∈ rp.plans, GoodItemPlan ip) ∧
  rp.order.length ≤ rp.plans.length ∧
  ∀ r ∈ w.rooms, ∀ j ∈ List.range r.stats.length, j ∈ rp.order

abbrev FairPlan (w : World) (p : StepPlan) : Prop :=
  p.branch = true ∧ GoodRoomPlan w p.roomPlan ∧ GoodItemPlan p.movPlan

abbrev FairPlans (w : World) (plans : List StepPlan) : Prop :=
  ∀ p ∈ plans, FairPlan w p

/-! ## Outcome shapes of the individual perform functions -/

/-- The world right after Container.perform_action succeeds. -/
def placedWorld (w : World) (i : Nat) (s : Stationary) (lr : Nat) : World :=
  { w with personItem := none,
           movables := updIdx w.movables i (fun x =>
             { x with container := some s.pddlName,
                      level := if s.stype == StatType.shelf
                               then some (1 + lr % s.levels) else none }) }

/-- The world right after Phone.interact. -/
def rangWorld (w : World) (i : Nat) : World :=
  { w with movables := updIdx w.movables i (fun x => { x with ringing := !x.ringing }) }

theorem placeInto_cases (w : World) (s : Stationary) (lr : Nat) :
    placeInto w s lr = .noop ∨ ∃ n w2, placeInto w s lr = .act n w2 := by
  cases hp : w.personItem with
  | none => exact Or.inl (by simp only [placeInto, hp])
  | some i =>
    cases hg : w.movables[i]? with
    | none => exact Or.inl (by simp only [placeInto, hp, hg])
    | some m =>
      by_cases hch : canHold s.stype m.mtype = true
      · exact Or.inr ⟨"I placed " ++ m.pddlName ++ " into " ++ s.pddlName ++ ".",
          placedWorld w i s lr,
          by simp only [placeInto, placedWorld, hp, hg, if_pos hch]⟩
      · exact Or.inl (by simp only [placeInto, hp, hg, if_neg hch])

theorem pickUp_cases (w : World) (h : WInv w) (i : Nat) :
    pickUp w i = .noop ∨ ∃ n w2, pickUp w i = .act n w2 := by
  cases hp : w.personItem with
  | some j => exact Or.inl (by simp only [pickUp, hp])
  | none =>
    cases hg : w.movables[i]? with
    | none => exact Or.inl (by simp only [pickUp, hp, hg])
    | some m =>
      obtain ⟨c, s, hc, _, _⟩ := winv_container_of_handEmpty h hp hg
      exact Or.inr ⟨"I picked up " ++ m.pddlName ++ ".", pickedWorld w i,
        by simp only [pickUp, pickedWorld, hp, hg, hc]⟩

theorem pickUp_act_of_handEmpty (w : World) (h : WInv w) {i : Nat} {m : Movable}
    (hp : w.personItem = none) (hm : w.movables[i]? = some m) :
    ∃ n w2, pickUp w i = .act n w2 := by
  obtain ⟨c, s, hc, _, _⟩ := winv_container_of_handEmpty h hp hm
  exact ⟨"I picked up " ++ m.pddlName ++ ".", pickedWorld w i,
    by simp only [pickUp, pickedWorld, hp, hm, hc]⟩

theorem sinkLoop_act_of_fair (w : World) (s : Stationary) (lr : Nat) :
    ∀ {coins : List Bool}, true ∈ coins →
      ∃ n w2, sinkLoop w s lr coins = .act n w2
  | [], h => absurd h (by simp)
  | c :: rest, h => by
    rw [sinkLoop]
    by_cases hc : c = true
    · rw [if_pos hc]
      exact ⟨_, _, rfl⟩
    · rw [if_neg hc]
      have hrest : true ∈ rest := by
        rcases List.mem_cons.mp h with h1 | h1
        · exact absurd h1.symm hc
        · exact h1
      rcases placeInto_cases w s lr with hpl | ⟨n, w2, hpl⟩
      · rw [hpl]
        exact sinkLoop_act_of_fair w s lr hrest
      · rw [hpl]
        exact ⟨n, w2, rfl⟩

theorem phoneLoop_act_of_fair (w : World) (h : WInv w) (i : Nat) :
    ∀ {coins : List Bool}, (∃ m, w.movables[i]? = some m) → true ∈ coins →
      ∃ n w2, phoneLoop w i coins = .act n w2
  | [], _, h2 => absurd h2 (by simp)
  | c :: rest, hm, h2 => by
    obtain ⟨m, hm2⟩ := hm
    rw [phoneLoop]
    by_cases hc : c = true
    · exact ⟨m.pddlName ++ (if !m.ringing then " started" else " stopped") ++ " ringing.",
        rangWorld w i,
        by rw [if_pos hc]; simp only [phoneRing, rangWorld, hm2]⟩
    · rw [if_neg hc]
      have hrest : true ∈ rest := by
        rcases List.mem_cons.mp h2 with h1 | h1
        · exact absurd h1.symm hc
        · exact h1
      rcases pickUp_cases w h i with hpl | ⟨n, w2, hpl⟩
      · rw [hpl]
        exact phoneLoop_act_of_fair w h i ⟨m, hm2⟩ hrest
      · rw [hpl]
        exact ⟨n, w2, rfl⟩

theorem stationaryPerform_cases (w : World) (s : Stationary) (ip : ItemPlan)
    (hfair : GoodItemPlan ip) :
    stationaryPerform w s ip = .noop ∨
      ∃ n w2, stationaryPerform w s ip = .act n w2 := by
  rw [stationaryPerform]
  cases hst : s.stype with
  | table => exact placeInto_cases w s ip.lr
  | shelf => exact placeInto_cases w s ip.lr
  | fridge => exact placeInto_cases w s ip.lr
  | sink => exact Or.inr (sinkLoop_act_of_fair w s ip.lr hfair)
  | window => exact Or.inr ⟨_, _, rfl⟩
  | light => exact Or.inr ⟨_, _, rfl⟩
  | tv => exact Or.inr ⟨_, _, rfl⟩

theorem stationaryPerform_act_of_elig (w : World) (s : Stationary) (ip : ItemPlan)
    (helig : StatEligB w s = true) (hfair : GoodItemPlan ip) :
    ∃ n w2, stationaryPerform w s ip = .act n w2 := by
  rw [stationaryPerform]
  cases hst : s.stype with
  | sink => exact sinkLoop_act_of_fair w s ip.lr hfair
  | window => exact ⟨_, _, rfl⟩
  | light => exact ⟨_, _, rfl⟩
  | tv => exact ⟨_, _, rfl⟩
  | table =>
    simp only [StatEligB, hst] at helig
    cases hp : w.personItem with
    | none =>
      simp only [hp] at helig
      exact absurd helig (by simp)
    | some i =>
      simp only [hp] at helig
      cases hg : w.movables[i]? with
      | none =>
        simp only [hg] at helig
        exact absurd helig (by simp)
      | some m =>
        simp only [hg] at helig
        have helig2 : canHold s.stype m.mtype = true := by rw [hst]; exact helig
        exact ⟨"I placed " ++ m.pddlName ++ " into " ++ s.pddlName ++ ".",
          placedWorld w i s ip.lr,
          by simp only [placeInto, placedWorld, hp, hg, if_pos helig2]⟩
  | shelf =>
    simp only [StatEligB, hst] at helig
    cases hp : w.personItem with
    | none =>
      simp only [hp] at helig
      exact absurd helig (by simp)
    | some i =>
      simp only [hp] at helig
      cases hg : w.movables[i]? with
      | none =>
        simp only [hg] at helig
        exact absurd helig (by simp)
      | some m =>
        simp only [hg] at helig
        have helig2 : canHold s.stype m.mtype = true := by rw [hst]; exact helig
        exact ⟨"I placed " ++ m.pddlName ++ " into " ++ s.pddlName ++ ".",
          placedWorld w i s ip.lr,
          by simp only [placeInto, placedWorld, hp, hg, if_pos helig2]⟩
  | fridge =>
    simp only [StatEligB, hst] at helig
    cases hp : w.personItem with
    | none =>
      simp only [hp] at helig
      exact absurd helig (by simp)
    | some i =>
      simp only [hp] at helig
      cases hg : w.movables[i]? with
      | none =>
        simp only [hg] at helig
        exact absurd helig (by simp)
      | some m =>
        simp only [hg] at helig
        have helig2 : canHold s.stype m.mtype = true := by rw [hst]; exact helig
        exact ⟨"I placed " ++ m.pddlName ++ " into " ++ s.pddlName ++ ".",
          placedWorld w i s ip.lr,
          by simp only [placeInto, placedWorld, hp, hg, if_pos helig2]⟩

theorem stationaryPerform_noop_of_not_elig (w : World) (s : Stationary)
    (ip : ItemPlan) (helig : StatEligB w s = false) :
    stationaryPerform w s ip = .noop := by
  rw [stationaryPerform]
  cases hst : s.stype with
  | sink => simp only [StatEligB, hst] at helig; exact absurd helig (by simp)
  | window => simp only [StatEligB, hst] at helig; exact absurd helig (by simp)
  | light => simp only [StatEligB, hst] at helig; exact absurd helig (by simp)
  | tv => simp only [StatEligB, hst] at helig; exact absurd helig (by simp)
  | table =>
    simp only [StatEligB, hst] at helig
    cases hp : w.personItem with
    | none => simp only [placeInto, hp]
    | some i =>
      simp only [hp] at helig
      cases hg : w.movables[i]? with
      | none => simp only [placeInto, hp, hg]
      | some m =>
        simp only [hg] at helig
        have helig2 : canHold s.stype m.mtype = false := by rw [hst]; exact helig
        have hneg : ¬(canHold s.stype m.mtype = true) := by rw [helig2]; simp
        simp only [placeInto, hp, hg, if_neg hneg]
  | shelf =>
    simp only [StatEligB, hst] at helig
    cases hp : w.personItem with
    | none => simp only [placeInto, hp]
    | some i =>
      simp only [hp] at helig
      cases hg : w.movables[i]? with
      | none => simp only [placeInto, hp, hg]
      | some m =>
        simp only [hg] at helig
        have helig2 : canHold s.stype m.mtype = false := by rw [hst]; exact helig
        have hneg : ¬(canHold s.stype m.mtype = true) := by rw [helig2]; simp
        simp only [placeInto, hp, hg, if_neg hneg]
  | fridge =>
    simp only [StatEligB, hst] at helig
    cases hp : w.personItem with
    | none => simp only [placeInto, hp]
    | some i =>
      simp only [hp] at helig
      cases hg : w.movables[i]? with
      | none => simp only [placeInto, hp, hg]
      | some m =>
        simp only [hg] at helig
        have helig2 : canHold s.stype m.mtype = false := by rw [hst]; exact helig
        have hneg : ¬(canHold s.stype m.mtype = true) := by rw [helig2]; simp
        simp only [placeInto, hp, hg, if_neg hneg]

theorem movPerform_cases (w : World) (h : WInv w) (i : Nat) (ip : ItemPlan)
    (hfair : GoodItemPlan ip) :
    movPerform w i ip = .noop ∨ ∃ n w2, movPerform w i ip = .act n w2 := by
  cases hg : w.movables[i]? with
  | none => exact Or.inl (by simp only [movPerform, hg])
  | some m =>
    by_cases hph : (m.mtype == MovType.phone) = true
    · refine Or.inr ?_
      obtain ⟨n, w2, hl⟩ := phoneLoop_act_of_fair w h i ⟨m, hg⟩ hfair
      exact ⟨n, w2, by simp only [movPerform, hg, if_pos hph]; exact hl⟩
    · rcases pickUp_cases w h i with hpu | ⟨n, w2, hpu⟩
      · exact Or.inl (by simp only [movPerform, hg, if_neg hph]; exact hpu)
      · exact Or.inr ⟨n, w2, by simp only [movPerform, hg, if_neg hph]; exact hpu⟩

theorem movPerform_act_of_elig (w : World) (h : WInv w) {i : Nat} {m : Movable}
    (hm : w.movables[i]? = some m) (helig : MovEligB w m = true) (ip : ItemPlan)
    (hfair : GoodItemPlan ip) : ∃ n w2, movPerform w i ip = .act n w2 := by
  by_cases hph : (m.mtype == MovType.phone) = true
  · obtain ⟨n, w2, hl⟩ := phoneLoop_act_of_fair w h i ⟨m, hm⟩ hfair
    exact ⟨n, w2, by simp only [movPerform, hm, if_pos hph]; exact hl⟩
  · have hpe : w.personItem = none := by
      rw [MovEligB] at helig
      rcases Bool.or_eq_true_iff.mp helig with h1 | h1
      · exact absurd h1 hph
      · exact (Option.isNone_iff_eq_none.mp (by simpa using h1))
    obtain ⟨n, w2, hpu⟩ := pickUp_act_of_handEmpty w h hpe hm
    exact ⟨n, w2, by simp only [movPerform, hm, if_neg hph]; exact hpu⟩

theorem movPerform_noop_of_not_elig (w : World) {i : Nat} {m : Movable}
    (hm : w.movables[i]? = some m) (helig : MovEligB w m = false)
    (ip : ItemPlan) : movPerform w i ip = .noop := by
  rw [MovEligB] at helig
  have h2 := Bool.or_eq_false_iff.mp helig
  have hph : (m.mtype == MovType.phone) = false := h2.1
  have hpe : ∃ j, w.personItem = some j := by
    cases hp : w.personItem with
    | none => rw [hp] at h2; simp at h2
    | some j => exact ⟨j, rfl⟩
  obtain ⟨j, hpj⟩ := hpe
  have hneg : ¬((m.mtype == MovType.phone) = true) := by rw [hph]; simp
  have hstep : movPerform w i ip = pickUp w i := by
    simp only [movPerform, hm, if_neg hneg]
  rw [hstep]
  simp only [pickUp, hpj]

/-! ## Room-level retry loop outcomes -/

theorem tryItems_cases (w : World) (r : Room) :
    ∀ (l : List (Nat × ItemPlan)), (∀ q ∈ l, GoodItemPlan q.2) →
      tryItems w r l = .noop ∨ ∃ n w2, tryItems w r l = .act n w2
  | [], _ => Or.inl rfl
  | q :: rest, hfair => by
    have hrest : ∀ q2 ∈ rest, GoodItemPlan q2.2 :=
      fun q2 hq2 => hfair q2 (List.mem_cons_of_mem _ hq2)
    cases hg : r.stats[q.1]? with
    | none =>
      have heq : tryItems w r (q :: rest) = tryItems w r rest := by
        rw [tryItems, hg]
      rw [heq]
      exact tryItems_cases w r rest hrest
    | some s =>
      have heq : tryItems w r (q :: rest) =
          match stationaryPerform w s q.2 with
          | ActRes.noop => tryItems w r rest
          | res => res := by
        rw [tryItems, hg]
      rcases stationaryPerform_cases w s q.2 (hfair q (List.mem_cons_self _ _)) with
        hperf | ⟨n, w2, hperf⟩
      · rw [heq, hperf]
        exact tryItems_cases w r rest hrest
      · rw [heq, hperf]
        exact Or.inr ⟨n, w2, rfl⟩

theorem tryItems_act_of_elig (w : World) (r : Room) :
    ∀ (l : List (Nat × ItemPlan)), (∀ q ∈ l, GoodItemPlan q.2) →
      (∃ q ∈ l, ∃ s, r.stats[q.1]? = some s ∧ StatEligB w s = true) →
      ∃ n w2, tryItems w r l = .act n w2
  | [], _, hex => by simp at hex
  | q :: rest, hfair, hex => by
    have hrest : ∀ q2 ∈ rest, GoodItemPlan q2.2 :=
      fun q2 hq2 => hfair q2 (List.mem_cons_of_mem _ hq2)
    cases hg : r.stats[q.1]? with
    | none =>
      have heq : tryItems w r (q :: rest) = tryItems w r rest := by
        rw [tryItems, hg]
      rw [heq]
      obtain ⟨q0, hq0, s0, hs0, helig0⟩ := hex
      rcases List.mem_cons.mp hq0 with hq1 | hq1
      · rw [hq1] at hs0
        rw [hs0] at hg
        exact Option.noConfusion hg
      · exact tryItems_act_of_elig w r rest hrest ⟨q0, hq1, s0, hs0, helig0⟩
    | some s =>
      have heq : tryItems w r (q :: rest) =
          match stationaryPerform w s q.2 with
          | ActRes.noop => tryItems w r rest
          | res => res := by
        rw [tryItems, hg]
      rcases stationaryPerform_cases w s q.2 (hfair q (List.mem_cons_self _ _)) with
        hperf | ⟨n, w2, hperf⟩
      · rw [heq, hperf]
        obtain ⟨q0, hq0, s0, hs0, helig0⟩ := hex
        rcases List.mem_cons.mp hq0 with hq1 | hq1
        · exfalso
          rw [hq1] at hs0
          rw [hs0] at hg
          have hseq : s = s0 := Option.some.inj hg.symm
          rw [← hseq] at helig0
          obtain ⟨n2, w3, hact⟩ := stationaryPerform_act_of_elig w s q.2 helig0
            (hfair q (List.mem_cons_self _ _))
          rw [hperf] at hact
          exact ActRes.noConfusion hact
        · exact tryItems_act_of_elig w r rest hrest ⟨q0, hq1, s0, hs0, helig0⟩
      · rw [heq, hperf]
        exact ⟨n, w2, rfl⟩

theorem tryItems_noop_of_none_elig (w : World) (r : Room)
    (hne : ∀ s ∈ r.stats, StatEligB w s = false) :
    ∀ (l : List (Nat × ItemPlan)), tryItems w r l = .noop
  | [] => rfl
  | q :: rest => by
    cases hg : r.stats[q.1]? with
    | none =>
      have heq : tryItems w r (q :: rest) = tryItems w r rest := by
        rw [tryItems, hg]
      rw [heq]
      exact tryItems_noop_of_none_elig w r hne rest
    | some s =>
      have hs : s ∈ r.stats := List.mem_iff_getElem?.mpr ⟨q.1, hg⟩
      have heq : tryItems w r (q :: rest) =
          match stationaryPerform w s q.2 with
          | ActRes.noop => tryItems w r rest
          | res => res := by
        rw [tryItems, hg]
      rw [heq, stationaryPerform_noop_of_not_elig w s q.2 (hne s hs)]
      exact tryItems_noop_of_none_elig w r hne rest

theorem mem_zip_of_mem_left {j : Nat} :
    ∀ {l1 : List Nat} {l2 : List ItemPlan}, l1.length ≤ l2.length → j ∈ l1 →
      ∃ b, (j, b) ∈ l1.zip l2
  | [], _, _, hj => absurd hj (by simp)
  | a :: l1, [], hlen, hj => by simp at hlen
  | a :: l1, b :: l2, hlen, hj => by
    rcases List.mem_cons.mp hj with hj1 | hj1
    · exact ⟨b, by rw [hj1]; exact List.mem_cons_self _ _⟩
    · obtain ⟨b2, hb2⟩ := @mem_zip_of_mem_left j l1 l2
        (by simpa using hlen) hj1
      exact ⟨b2, List.mem_cons_of_mem _ hb2⟩

theorem tryRoomAt_cases (w : World) (rIdx : Nat) (rp : RoomPlan)
    (hrp : GoodRoomPlan w rp) :
    tryRoomAt w rIdx rp = .noop ∨ ∃ n w2, tryRoomAt w rIdx rp = .act n w2 := by
  rw [tryRoomAt]
  cases hg : w.rooms[rIdx]? with
  | none => exact Or.inl rfl
  | some r =>
    refine tryItems_cases w r _ ?_
    intro q hq
    exact hrp.1 q.2 (List.of_mem_zip hq).2

theorem tryRoomAt_act_of_elig (w : World) (rIdx : Nat) (rp : RoomPlan)
    (hrp : GoodRoomPlan w rp) {r : Room} (hg : w.rooms[rIdx]? = some r)
    {s : Stationary} (hs : s ∈ r.stats) (helig : StatEligB w s = true) :
    ∃ n w2, tryRoomAt w rIdx rp = .act n w2 := by
  have heq : tryRoomAt w rIdx rp = tryItems w r (rp.order.zip rp.plans) := by
    rw [tryRoomAt, hg]
  rw [heq]
  obtain ⟨j, hj⟩ := List.mem_iff_getElem?.mp hs
  have hjlt : j < r.stats.length := by
    by_contra hcon
    rw [List.getElem?_eq_none (Nat.le_of_not_lt hcon)] at hj
    exact Option.noConfusion hj
  have hjord : j ∈ rp.order :=
    hrp.2.2 r (List.mem_iff_getElem?.mpr ⟨rIdx, hg⟩) j (List.mem_range.mpr hjlt)
  obtain ⟨b, hb⟩ := mem_zip_of_mem_left hrp.2.1 hjord
  refine tryItems_act_of_elig w r _ ?_ ⟨(j, b), hb, s, hj, helig⟩
  intro q hq
  exact hrp.1 q.2 (List.of_mem_zip hq).2

theorem tryRoomAt_noop_of_not_elig (w : World) (rIdx : Nat) (rp : RoomPlan)
    (hne : roomEligAt w rIdx = false) : tryRoomAt w rIdx rp = .noop := by
  cases hg : w.rooms[rIdx]? with
  | none => rw [tryRoomAt, hg]
  | some r =>
    have heq : tryRoomAt w rIdx rp = tryItems w r (rp.order.zip rp.plans) := by
      rw [tryRoomAt, hg]
    rw [heq]
    rw [roomEligAt, hg] at hne
    have hne2 : r.stats.any (fun s => StatEligB w s) = false := hne
    have hall : ∀ s ∈ r.stats, StatEligB w s = false := by
      intro s hs
      have h3 := List.any_eq_false.mp hne2 s hs
      exact Bool.eq_false_iff.mpr h3
    exact tryItems_noop_of_none_elig w r hall _

/-! ## Pool bookkeeping helpers for the main loop -/

theorem length_pos_of_isEmpty_false {l : List Nat} (h : l.isEmpty = false) :
    0 < l.length := by
  cases l with
  | nil => simp at h
  | cons a t => simp

theorem isEmpty_false_of_mem {l : List Nat} {x : Nat} (h : x ∈ l) :
    l.isEmpty = false := by
  cases l with
  | nil => simp at h
  | cons a t => rfl

theorem getD_mem : ∀ {l : List Nat} {k : Nat}, k < l.length → l.getD k 0 ∈ l
  | a :: l, 0, _ => List.mem_cons_self _ _
  | a :: l, k + 1, hk =>
    List.mem_cons_of_mem _ (getD_mem (by simpa using hk))

theorem perm_getD_eraseIdx : ∀ {l : List Nat} {k : Nat}, k < l.length →
    List.Perm l (l.getD k 0 :: l.eraseIdx k)
  | a :: l, 0, _ => List.Perm.refl _
  | a :: l, k + 1, hk => by
    have ih := perm_getD_eraseIdx (l := l) (k := k) (by simpa using hk)
    exact List.Perm.trans (ih.cons a) (List.Perm.swap _ _ _)

theorem mem_of_mem_eraseIdx {x : Nat} :
    ∀ {l : List Nat} {k : Nat}, x ∈ l.eraseIdx k → x ∈ l
  | [], _, h => by simp [List.eraseIdx] at h
  | a :: l, 0, h => List.mem_cons_of_mem _ h
  | a :: l, k + 1, h => by
    have h2 : x ∈ a :: l.eraseIdx k := h
    rcases List.mem_cons.mp h2 with h1 | h1
    · rw [h1]; exact List.mem_cons_self _ _
    · exact List.mem_cons_of_mem _ (mem_of_mem_eraseIdx h1)

theorem any_false_of_forall_mem {l2 l : List Nat} {f : Nat → Bool}
    (h : l.any f = false) (hsub : ∀ x ∈ l2, x ∈ l) : l2.any f = false := by
  rw [List.any_eq_false] at h ⊢
  intro x hx
  exact h x (hsub x hx)

/-! ## Eligibility of a pool entry drives the perform outcome -/

theorem tryRoomAt_act_of_roomElig (w : World) (rIdx : Nat) (rp : RoomPlan)
    (hrp : GoodRoomPlan w rp) (he : roomEligAt w rIdx = true) :
    ∃ n w2, tryRoomAt w rIdx rp = .act n w2 := by
  cases hg : w.rooms[rIdx]? with
  | none =>
    simp only [roomEligAt, hg] at he
    exact Bool.noConfusion he
  | some r =>
    rw [roomEligAt, hg] at he
    have he2 : r.stats.any (fun s => StatEligB w s) = true := he
    obtain ⟨s, hs, helig⟩ := List.any_eq_true.mp he2
    exact tryRoomAt_act_of_elig w rIdx rp hrp hg hs helig

theorem movPerform_act_of_movElig (w : World) (h : WInv w) {i : Nat}
    (he : movEligAt w i = true) (ip : ItemPlan) (hfair : GoodItemPlan ip) :
    ∃ n w2, movPerform w i ip = .act n w2 := by
  cases hg : w.movables[i]? with
  | none =>
    simp only [movEligAt, hg] at he
    exact Bool.noConfusion he
  | some m =>
    rw [movEligAt, hg] at he
    exact movPerform_act_of_elig w h hg (show MovEligB w m = true from he) ip hfair

theorem movPerform_noop_of_not_movElig (w : World) {i : Nat}
    (he : movEligAt w i = false) (ip : ItemPlan) : movPerform w i ip = .noop := by
  cases hg : w.movables[i]? with
  | none => simp only [movPerform, hg]
  | some m =>
    rw [movEligAt, hg] at he
    exact movPerform_noop_of_not_elig w hg (show MovEligB w m = false from he) ip

/-! ## One-step unfoldings of the main loop -/

theorem genLoop_cons_fatal {w : World} {rooms movs : List Nat} {p : StepPlan}
    {ps : List StepPlan} (hg : (rooms.isEmpty && movs.isEmpty) = true) :
    genLoop w rooms movs (p :: ps) = .fatal := by
  rw [genLoop, if_pos hg]

theorem genLoop_cons_roomact {w : World} {rooms movs : List Nat} {p : StepPlan}
    {ps : List StepPlan} {n : String} {w2 : World}
    (hguard : (rooms.isEmpty && movs.isEmpty) = false)
    (hcb : (!rooms.isEmpty && p.branch) = true)
    (htr : tryRoomAt w (rooms.getD (p.roomPick % rooms.length) 0) p.roomPlan
           = .act n w2) :
    genLoop w rooms movs (p :: ps) = .out n w2 := by
  have hg2 : ¬((rooms.isEmpty && movs.isEmpty) = true) := by rw [hguard]; simp
  rw [genLoop, if_neg hg2, if_pos hcb, htr]

theorem genLoop_cons_movact {w : World} {rooms movs : List Nat} {p : StepPlan}
    {ps : List StepPlan} {n : String} {w2 : World}
    (hguard : (rooms.isEmpty && movs.isEmpty) = false)
    (hres : (if !rooms.isEmpty && p.branch then
               tryRoomAt w (rooms.getD (p.roomPick % rooms.length) 0) p.roomPlan
             else ActRes.noop) = ActRes.noop)
    (hme : movs.isEmpty = false)
    (hmv : movPerform w (movs.getD (p.movPick % movs.length) 0) p.movPlan
           = .act n w2) :
    genLoop w rooms movs (p :: ps) = .out n w2 := by
  have hg2 : ¬((rooms.isEmpty && movs.isEmpty) = true) := by rw [hguard]; simp
  rw [genLoop, if_neg hg2, hres, hme, hmv]
  rfl

theorem genLoop_cons_skip {w : World} {rooms movs : List Nat} {p : StepPlan}
    {ps : List StepPlan}
    (hguard : (rooms.isEmpty && movs.isEmpty) = false)
    (hres : (if !rooms.isEmpty && p.branch then
               tryRoomAt w (rooms.getD (p.roomPick % rooms.length) 0) p.roomPlan
             else ActRes.noop) = ActRes.noop)
    (hme : movs.isEmpty = true) :
    genLoop w rooms movs (p :: ps) =
      genLoop w (if !rooms.isEmpty && p.branch
                 then rooms.eraseIdx (p.roomPick % rooms.length) else rooms)
        movs ps := by
  have hg2 : ¬((rooms.isEmpty && movs.isEmpty) = true) := by rw [hguard]; simp
  rw [genLoop, if_neg hg2, hres, hme]
  rfl

theorem genLoop_cons_recurse {w : World} {rooms movs : List Nat} {p : StepPlan}
    {ps : List StepPlan}
    (hguard : (rooms.isEmpty && movs.isEmpty) = false)
    (hres : (if !rooms.isEmpty && p.branch then
               tryRoomAt w (rooms.getD (p.roomPick % rooms.length) 0) p.roomPlan
             else ActRes.noop) = ActRes.noop)
    (hme : movs.isEmpty = false)
    (hmv : movPerform w (movs.getD (p.movPick % movs.length) 0) p.movPlan
           = ActRes.noop) :
    genLoop w rooms movs (p :: ps) =
      genLoop w (if !rooms.isEmpty && p.branch
                 then rooms.eraseIdx (p.roomPick % rooms.length) else rooms)
        (movs.eraseIdx (p.movPick % movs.length)) ps := by
  have hg2 : ¬((rooms.isEmpty && movs.isEmpty) = true) := by rw [hguard]; simp
  rw [genLoop, if_neg hg2, hres, hme, hmv]
  rfl

/-! ## Termination of the main loop under eligibility -/

theorem genLoop_total (w : World) (h : WInv w) :
    ∀ (plans : List StepPlan), ∀ (rooms movs : List Nat),
      FairPlans w plans → EligB w rooms movs = true →
      rooms.length + movs.length ≤ plans.length →
      ∃ n w2, genLoop w rooms movs plans = .out n w2 := by
  intro plans
  induction plans with
  | nil =>
    intro rooms movs _ helig hlen
    exfalso
    have hpos : 0 < rooms.length + movs.length := by
      rcases Bool.or_eq_true_iff.mp helig with h1 | h1
      · obtain ⟨x, hx, _⟩ := List.any_eq_true.mp h1
        have := List.length_pos_of_mem hx
        omega
      · obtain ⟨x, hx, _⟩ := List.any_eq_true.mp h1
        have := List.length_pos_of_mem hx
        omega
    simp only [List.length_nil] at hlen
    omega
  | cons p ps ih =>
    intro rooms movs hfair helig hlen
    have hfp : FairPlan w p := hfair p (List.mem_cons_self _ _)
    have hfps : FairPlans w ps := fun q hq => hfair q (List.mem_cons_of_mem _ hq)
    have hbr : p.branch = true := hfp.1
    have hguard : (rooms.isEmpty && movs.isEmpty) = false := by
      rcases Bool.or_eq_true_iff.mp helig with h1 | h1
      · obtain ⟨x, hx, _⟩ := List.any_eq_true.mp h1
        rw [isEmpty_false_of_mem hx, Bool.false_and]
      · obtain ⟨x, hx, _⟩ := List.any_eq_true.mp h1
        rw [isEmpty_false_of_mem hx, Bool.and_false]
    by_cases hrne : rooms.isEmpty = true
    · -- the room pool is empty: only the movable branch can run
      have hrnil : rooms = [] := by
        cases rooms with
        | nil => rfl
        | cons a t => simp at hrne
      have hcb : (!rooms.isEmpty && p.branch) = false := by rw [hrne]; rfl
      have hcbn : ¬((!rooms.isEmpty && p.branch) = true) := by rw [hcb]; simp
      have hres : (if !rooms.isEmpty && p.branch then
          tryRoomAt w (rooms.getD (p.roomPick % rooms.length) 0) p.roomPlan
        else ActRes.noop) = ActRes.noop := by rw [if_neg hcbn]
      have hmv : ∃ i ∈ movs, movEligAt w i = true := by
        rcases Bool.or_eq_true_iff.mp helig with h1 | h1
        · rw [hrnil] at h1; simp at h1
        · exact List.any_eq_true.mp h1
      obtain ⟨i0, hi0, hei0⟩ := hmv
      have hme : movs.isEmpty = false := isEmpty_false_of_mem hi0
      have hmpos : 0 < movs.length := length_pos_of_isEmpty_false hme
      have hklt : p.movPick % movs.length < movs.length := Nat.mod_lt _ hmpos
      by_cases hpe : movEligAt w (movs.getD (p.movPick % movs.length) 0) = true
      · obtain ⟨n, w2, hact⟩ := movPerform_act_of_movElig w h hpe p.movPlan hfp.2.2
        exact ⟨n, w2, genLoop_cons_movact hguard hres hme hact⟩
      · have hpef : movEligAt w (movs.getD (p.movPick % movs.length) 0) = false :=
          Bool.eq_false_iff.mpr hpe
        have hnoop := movPerform_noop_of_not_movElig w hpef p.movPlan
        have heq := @genLoop_cons_recurse w rooms movs p ps hguard hres hme hnoop
        rw [if_neg hcbn] at heq
        have hperm := perm_getD_eraseIdx hklt
        have hi0e : i0 ∈ movs.eraseIdx (p.movPick % movs.length) := by
          have hm2 := (hperm.mem_iff).mp hi0
          rcases List.mem_cons.mp hm2 with h1 | h1
          · exfalso
            rw [h1] at hei0
            rw [hpef] at hei0
            exact Bool.noConfusion hei0
          · exact h1
        have helig2 : EligB w rooms (movs.eraseIdx (p.movPick % movs.length)) = true := by
          rw [EligB]
          exact Bool.or_eq_true_iff.mpr
            (Or.inr (List.any_eq_true.mpr ⟨i0, hi0e, hei0⟩))
        have hlen2 : rooms.length +
            (movs.eraseIdx (p.movPick % movs.length)).length ≤ ps.length := by
          have hle := hperm.length_eq
          simp only [List.length_cons] at hle
          simp only [List.length_cons] at hlen
          omega
        rw [heq]
        exact ih _ _ hfps helig2 hlen2
    · -- the room pool is nonempty and the coin picks it
      have hrf : rooms.isEmpty = false := Bool.eq_false_iff.mpr hrne
      have hcb : (!rooms.isEmpty && p.branch) = true := by rw [hrf, hbr]; rfl
      have hrpos : 0 < rooms.length := length_pos_of_isEmpty_false hrf
      have hklt : p.roomPick % rooms.length < rooms.length := Nat.mod_lt _ hrpos
      have hpermr := perm_getD_eraseIdx hklt
      by_cases hre : roomEligAt w (rooms.getD (p.roomPick % rooms.length) 0) = true
      · obtain ⟨n, w2, hact⟩ := tryRoomAt_act_of_roomElig w _ p.roomPlan hfp.2.1 hre
        exact ⟨n, w2, genLoop_cons_roomact hguard hcb hact⟩
      · have href : roomEligAt w (rooms.getD (p.roomPick % rooms.length) 0) = false :=
          Bool.eq_false_iff.mpr hre
        have htr := tryRoomAt_noop_of_not_elig w _ p.roomPlan href
        have hres : (if !rooms.isEmpty && p.branch then
            tryRoomAt w (rooms.getD (p.roomPick % rooms.length) 0) p.roomPlan
          else ActRes.noop) = ActRes.noop := by rw [if_pos hcb]; exact htr
        have hsurv : ∀ rI ∈ rooms, roomEligAt w rI = true →
            rI ∈ rooms.eraseIdx (p.roomPick % rooms.length) := by
          intro rI hrI herI
          have hm2 := (hpermr.mem_iff).mp hrI
          rcases List.mem_cons.mp hm2 with h1 | h1
          · exfalso
            rw [h1] at herI
            rw [href] at herI
            exact Bool.noConfusion herI
          · exact h1
        have hlenr := hpermr.length_eq
        by_cases hmet : movs.isEmpty = true
        · -- the movable pool is empty: skip to the next iteration
          have hmnil : movs = [] := by
            cases movs with
            | nil => rfl
            | cons a t => simp at hmet
          have heq := @genLoop_cons_skip w rooms movs p ps hguard hres hmet
          rw [if_pos hcb] at heq
          have hrw : ∃ rI ∈ rooms, roomEligAt w rI = true := by
            rcases Bool.or_eq_true_iff.mp helig with h1 | h1
            · exact List.any_eq_true.mp h1
            · rw [hmnil] at h1; simp at h1
          obtain ⟨rI, hrI, herI⟩ := hrw
          have helig2 : EligB w (rooms.eraseIdx (p.roomPick % rooms.length))
              movs = true := by
            rw [EligB]
            exact Bool.or_eq_true_iff.mpr
              (Or.inl (List.any_eq_true.mpr ⟨rI, hsurv rI hrI herI, herI⟩))
          have hlen2 : (rooms.eraseIdx (p.roomPick % rooms.length)).length +
              movs.length ≤ ps.length := by
            simp only [List.length_cons] at hlenr
            simp only [List.length_cons] at hlen
            omega
          rw [heq]
          exact ih _ _ hfps helig2 hlen2
        · have hmef : movs.isEmpty = false := Bool.eq_false_iff.mpr hmet
          have hmpos : 0 < movs.length := length_pos_of_isEmpty_false hmef
          have hkm : p.movPick % movs.length < movs.length := Nat.mod_lt _ hmpos
          by_cases hpe : movEligAt w (movs.getD (p.movPick % movs.length) 0) = true
          · obtain ⟨n, w2, hact⟩ := movPerform_act_of_movElig w h hpe p.movPlan hfp.2.2
            exact ⟨n, w2, genLoop_cons_movact hguard hres hmef hact⟩
          · have hpef : movEligAt w (movs.getD (p.movPick % movs.length) 0) = false :=
              Bool.eq_false_iff.mpr hpe
            have hnoop := movPerform_noop_of_not_movElig w hpef p.movPlan
            have heq := @genLoop_cons_recurse w rooms movs p ps hguard hres hmef hnoop
            rw [if_pos hcb] at heq
            have hpermm := perm_getD_eraseIdx hkm
            have helig2 : EligB w (rooms.eraseIdx (p.roomPick % rooms.length))
                (movs.eraseIdx (p.movPick % movs.length)) = true := by
              rcases Bool.or_eq_true_iff.mp helig with h1 | h1
              · obtain ⟨rI, hrI, herI⟩ := List.any_eq_true.mp h1
                rw [EligB]
                exact Bool.or_eq_true_iff.mpr
                  (Or.inl (List.any_eq_true.mpr ⟨rI, hsurv rI hrI herI, herI⟩))
              · obtain ⟨i0, hi0, hei0⟩ := List.any_eq_true.mp h1
                have hi0e : i0 ∈ movs.eraseIdx (p.movPick % movs.length) := by
                  have hm2 := (hpermm.mem_iff).mp hi0
                  rcases List.mem_cons.mp hm2 with h2 | h2
                  · exfalso
                    rw [h2] at hei0
                    rw [hpef] at hei0
                    exact Bool.noConfusion hei0
                  · exact h2
                rw [EligB]
                exact Bool.or_eq_true_iff.mpr
                  (Or.inr (List.any_eq_true.mpr ⟨i0, hi0e, hei0⟩))
            have hlenm := hpermm.length_eq
            have hlen2 : (rooms.eraseIdx (p.roomPick % rooms.length)).length +
                (movs.eraseIdx (p.movPick % movs.length)).length ≤ ps.length := by
              simp only [List.length_cons] at hlenr hlenm
              simp only [List.length_cons] at hlen
              omega
            rw [heq]
            exact ih _ _ hfps helig2 hlen2

/-! ## The fatal assert fires when nothing is eligible -/

theorem genLoop_fatal (w : World) :
    ∀ (plans : List StepPlan), ∀ (rooms movs : List Nat),
      (∀ p ∈ plans, p.branch = true) →
      EligB w rooms movs = false →
      rooms.length + movs.length < plans.length →
      genLoop w rooms movs plans = .fatal := by
  intro plans
  induction plans with
  | nil =>
    intro rooms movs _ _ hlen
    simp at hlen
  | cons p ps ih =>
    intro rooms movs hbr helig hlen
    have hbp : p.branch = true := hbr p (List.mem_cons_self _ _)
    have hbrs : ∀ q ∈ ps, q.branch = true :=
      fun q hq => hbr q (List.mem_cons_of_mem _ hq)
    rw [EligB] at helig
    have hparts := Bool.or_eq_false_iff.mp helig
    have hrany : rooms.any (roomEligAt w) = false := hparts.1
    have hmany : movs.any (movEligAt w) = false := hparts.2
    by_cases hg : (rooms.isEmpty && movs.isEmpty) = true
    · exact genLoop_cons_fatal hg
    · have hguard : (rooms.isEmpty && movs.isEmpty) = false :=
        Bool.eq_false_iff.mpr hg
      by_cases hrne : rooms.isEmpty = true
      · -- room pool already empty, so the movable pool is not
        have hcb : (!rooms.isEmpty && p.branch) = false := by rw [hrne]; rfl
        have hcbn : ¬((!rooms.isEmpty && p.branch) = true) := by rw [hcb]; simp
        have hres : (if !rooms.isEmpty && p.branch then
            tryRoomAt w (rooms.getD (p.roomPick % rooms.length) 0) p.roomPlan
          else ActRes.noop) = ActRes.noop := by rw [if_neg hcbn]
        have hr0 : rooms.length = 0 := by
          cases rooms with
          | nil => rfl
          | cons a t => simp at hrne
        have hmef : movs.isEmpty = false := by
          rw [hrne, Bool.true_and] at hguard
          exact hguard
        have hmpos : 0 < movs.length := length_pos_of_isEmpty_false hmef
        have hkm : p.movPick % movs.length < movs.length := Nat.mod_lt _ hmpos
        have hpef : movEligAt w (movs.getD (p.movPick % movs.length) 0) = false :=
          Bool.eq_false_iff.mpr
            (List.any_eq_false.mp hmany _ (getD_mem hkm))
        have hnoop := movPerform_noop_of_not_movElig w hpef p.movPlan
        have heq := @genLoop_cons_recurse w rooms movs p ps hguard hres hmef hnoop
        rw [if_neg hcbn] at heq
        have helig2 : EligB w rooms (movs.eraseIdx (p.movPick % movs.length)) = false := by
          rw [EligB]
          exact Bool.or_eq_false_iff.mpr
            ⟨hrany, any_false_of_forall_mem hmany
              (fun x hx => mem_of_mem_eraseIdx hx)⟩
        have hlenm := (perm_getD_eraseIdx hkm).length_eq
        have hlen2 : rooms.length +
            (movs.eraseIdx (p.movPick % movs.length)).length < ps.length := by
          simp only [List.length_cons] at hlenm
          simp only [List.length_cons] at hlen
          omega
        rw [heq]
        exact ih _ _ hbrs helig2 hlen2
      · -- the room branch runs but the popped room has nothing eligible
        have hrf : rooms.isEmpty = false := Bool.eq_false_iff.mpr hrne
        have hcb : (!rooms.isEmpty && p.branch) = true := by rw [hrf, hbp]; rfl
        have hrpos : 0 < rooms.length := length_pos_of_isEmpty_false hrf
        have hklt : p.roomPick % rooms.length < rooms.length := Nat.mod_lt _ hrpos
        have href : roomEligAt w (rooms.getD (p.roomPick % rooms.length) 0) = false :=
          Bool.eq_false_iff.mpr
            (List.any_eq_false.mp hrany _ (getD_mem hklt))
        have htr := tryRoomAt_noop_of_not_elig w _ p.roomPlan href
        have hres : (if !rooms.isEmpty && p.branch then
            tryRoomAt w (rooms.getD (p.roomPick % rooms.length) 0) p.roomPlan
          else ActRes.noop) = ActRes.noop := by rw [if_pos hcb]; exact htr
        have hrany2 : (rooms.eraseIdx (p.roomPick % rooms.length)).any
            (roomEligAt w) = false :=
          any_false_of_forall_mem hrany (fun x hx => mem_of_mem_eraseIdx hx)
        have hlenr := (perm_getD_eraseIdx hklt).length_eq
        by_cases hmet : movs.isEmpty = true
        · have heq := @genLoop_cons_skip w rooms movs p ps hguard hres hmet
          rw [if_pos hcb] at heq
          have helig2 : EligB w (rooms.eraseIdx (p.roomPick % rooms.length))
              movs = false := by
            rw [EligB]
            exact Bool.or_eq_false_iff.mpr ⟨hrany2, hmany⟩
          have hlen2 : (rooms.eraseIdx (p.roomPick % rooms.length)).length +
              movs.length < ps.length := by
            simp only [List.length_cons] at hlenr
            simp only [List.length_cons] at hlen
            omega
          rw [heq]
          exact ih _ _ hbrs helig2 hlen2
        · have hmef : movs.isEmpty = false := Bool.eq_false_iff.mpr hmet
          have hmpos : 0 < movs.length := length_pos_of_isEmpty_false hmef
          have hkm : p.movPick % movs.length < movs.length := Nat.mod_lt _ hmpos
          have hpef : movEligAt w (movs.getD (p.movPick % movs.length) 0) = false :=
            Bool.eq_false_iff.mpr
              (List.any_eq_false.mp hmany _ (getD_mem hkm))
          have hnoop := movPerform_noop_of_not_movElig w hpef p.movPlan
          have heq := @genLoop_cons_recurse w rooms movs p ps hguard hres hmef hnoop
          rw [if_pos hcb] at heq
          have helig2 : EligB w (rooms.eraseIdx (p.roomPick % rooms.length))
              (movs.eraseIdx (p.movPick % movs.length)) = false := by
            rw [EligB]
            exact Bool.or_eq_false_iff.mpr
              ⟨hrany2, any_false_of_forall_mem hmany
                (fun x hx => mem_of_mem_eraseIdx hx)⟩
          have hlenm := (perm_getD_eraseIdx hkm).length_eq
          have hlen2 : (rooms.eraseIdx (p.roomPick % rooms.length)).length +
              (movs.eraseIdx (p.movPick % movs.length)).length < ps.length := by
            simp only [List.length_cons] at hlenr hlenm
            simp only [List.length_cons] at hlen
            omega
          rw [heq]
          exact ih _ _ hbrs helig2 hlen2

/-! ## C3: the state-change generator terminates or aborts -/

/-- A world with no rooms and no movables: nothing is eligible. -/
def emptyWorld : World := ⟨[], [], none⟩

/-- A fair item plan for the sample rooms. -/
def ip3 : ItemPlan := ⟨[true], true, 0⟩

/-- A fair room plan covering every item slot of the sample rooms. -/
def rp3 : RoomPlan := ⟨[0, 1, 2], [ip3, ip3, ip3]⟩

/-- A fair loop-iteration plan. -/
def sp3 : StepPlan := ⟨true, 0, rp3, 0, ip3⟩

/-- C3: when some candidate in the initial pools is eligible to act,
generate_state_change returns a narration within a bounded number of
retries — the modelled loop never exhausts a fair plan list as long as
each iteration can consume one pool entry — and on a crafted world
with zero eligible actions it raises the fatal invariant-violation
assert instead of looping forever. -/
theorem state_change_terminates_or_fatal (w : World) (h : WInv w)
    (plans : List StepPlan) :
    (FairPlans w plans →
      EligB w (List.range w.rooms.length) (List.range w.movables.length) = true →
      w.rooms.length + w.movables.length ≤ plans.length →
      ∃ n w2, genStateChange w plans = .out n w2) ∧
    ((∀ p ∈ plans, p.branch = true) →
      EligB w (List.range w.rooms.length) (List.range w.movables.length) = false →
      w.rooms.length + w.movables.length < plans.length →
      genStateChange w plans = .fatal) := by
  constructor
  · intro hfair helig hlen
    rw [genStateChange]
    exact genLoop_total w h plans _ _ hfair helig (by simpa using hlen)
  · intro hbr helig hlen
    rw [genStateChange]
    exact genLoop_fatal w plans _ _ hbr helig (by simpa using hlen)

/-- Concrete instances of C3: the sample world yields a narration, the
empty world hits the fatal assert. -/
theorem state_change_terminates_or_fatal_witness :
    (∃ n w2, genStateChange sampleWorld [sp3, sp3] = .out n w2) ∧
    genStateChange emptyWorld [sp3] = .fatal :=
  ⟨(state_change_terminates_or_fatal sampleWorld (by decide) [sp3, sp3]).1
      (by decide) (by decide) (by decide),
   (state_change_terminates_or_fatal emptyWorld (by decide) [sp3]).2
      (by decide) (by decide) (by decide)⟩

/-! ## The invariant survives every atomic action -/

/-- The pointwise effect of updateStat on one stationary item. -/
def statUpd (c : String) (f : Stationary → Stationary) (s : Stationary) :
    Stationary :=
  if s.pddlName == c then f s else s

theorem allStats_updateStat (w : World) (c : String) (f : Stationary → Stationary) :
    allStats (updateStat w c f) = (allStats w).map (statUpd c f) := by
  show ((w.rooms.map (fun r => ({ r with stats := r.stats.map (statUpd c f) } : Room))).flatMap (fun r => r.stats)) = (w.rooms.flatMap (fun r => r.stats)).map (statUpd c f)
  rw [List.flatMap_map, List.map_flatMap]

theorem findStat_updateStat (w : World) (c c' : String)
    (f : Stationary → Stationary) (hname : ∀ s, (f s).pddlName = s.pddlName) :
    findStat (updateStat w c f) c' = (findStat w c').map (statUpd c f) := by
  rw [findStat, findStat, allStats_updateStat, List.find?_map]
  have hpred : ((fun s : Stationary => s.pddlName == c') ∘ statUpd c f) =
      (fun s : Stationary => s.pddlName == c') := by
    funext s
    simp only [Function.comp, statUpd]
    by_cases hpc : (s.pddlName == c) = true
    · rw [if_pos hpc, hname]
    · rw [if_neg hpc]
  rw [hpred]

theorem findStat_updateStat_some (w : World) (c c' : String)
    (f : Stationary → Stationary) (hname : ∀ s, (f s).pddlName = s.pddlName)
    {s : Stationary} (hf : findStat w c' = some s) :
    findStat (updateStat w c f) c' = some (statUpd c f s) := by
  rw [findStat_updateStat w c c' f hname, hf]
  rfl

theorem statOKB_of_fields {s t : Stationary} (h : statOKB s = true)
    (hst : t.stype = s.stype) (hlv : t.levels = s.levels)
    (hch : t.channel = s.channel ∨ t.channel < 6) : statOKB t = true := by
  rw [statOKB] at h ⊢
  rw [hst, hlv]
  rcases Bool.and_eq_true_iff.mp h with ⟨h1, h2⟩
  refine Bool.and_eq_true_iff.mpr ⟨h1, ?_⟩
  by_cases htv : (s.stype == StatType.tv) = true
  · rw [if_pos htv]
    rw [if_pos htv] at h2
    rcases hch with hc | hc
    · rw [hc]; exact h2
    · exact decide_eq_true hc
  · rw [if_neg htv]

theorem statUpd_stype (c : String) (f : Stationary → Stationary)
    (hty : ∀ s, (f s).stype = s.stype) (s : Stationary) :
    (statUpd c f s).stype = s.stype := by
  rw [statUpd]
  by_cases hpc : (s.pddlName == c) = true
  · rw [if_pos hpc]; exact hty s
  · rw [if_neg hpc]

theorem statUpd_levels (c : String) (f : Stationary → Stationary)
    (hlv : ∀ s, (f s).levels = s.levels) (s : Stationary) :
    (statUpd c f s).levels = s.levels := by
  rw [statUpd]
  by_cases hpc : (s.pddlName == c) = true
  · rw [if_pos hpc]; exact hlv s
  · rw [if_neg hpc]

theorem itemOKB_updateStat (w : World) (c : String) (f : Stationary → Stationary)
    (hname : ∀ s, (f s).pddlName = s.pddlName)
    (hty : ∀ s, (f s).stype = s.stype)
    (hlv : ∀ s, (f s).levels = s.levels)
    (j : Nat) (h : itemOKB w j = true) : itemOKB (updateStat w c f) j = true := by
  have hmv : (updateStat w c f).movables = w.movables := rfl
  have hpi : (updateStat w c f).personItem = w.personItem := rfl
  cases hm : w.movables[j]? with
  | none => simp only [itemOKB, hmv, hpi, hm]
  | some m =>
    simp only [itemOKB, hm] at h
    simp only [itemOKB, hmv, hpi, hm]
    cases hc : m.container with
    | none =>
      simp only [hc] at h
      exact h
    | some c' =>
      simp only [hc] at h
      rcases Bool.and_eq_true_iff.mp h with ⟨h1, h2⟩
      refine Bool.and_eq_true_iff.mpr ⟨h1, ?_⟩
      cases hf : findStat w c' with
      | none =>
        rw [hf] at h2
        exact absurd (show (false : Bool) = true from h2) (by simp)
      | some s =>
        simp only [hf] at h2
        simp only [findStat_updateStat_some w c c' f hname hf]
        simp only [statUpd_stype c f hty s, statUpd_levels c f hlv s]
        exact h2

theorem updateStat_winv (w : World) (c : String) (f : Stationary → Stationary)
    (hname : ∀ s, (f s).pddlName = s.pddlName)
    (hty : ∀ s, (f s).stype = s.stype)
    (hlv : ∀ s, (f s).levels = s.levels)
    (hok : ∀ s, statOKB s = true → statOKB (f s) = true)
    (h : WInv w) : WInv (updateStat w c f) := by
  rw [WInv, invB]
  simp only [Bool.and_eq_true]
  refine ⟨⟨⟨?_, ?_⟩, ?_⟩, ?_⟩
  · have heq : heldOKB (updateStat w c f) = heldOKB w := rfl
    rw [heq]
    exact winv_held h
  · rw [List.all_eq_true]
    intro j _
    exact itemOKB_updateStat w c f hname hty hlv j (winv_item h j)
  · rw [List.all_eq_true]
    intro s hs
    rw [allStats_updateStat] at hs
    obtain ⟨s0, hs0, hse⟩ := List.mem_map.mp hs
    rw [← hse, statUpd]
    by_cases hpc : (s0.pddlName == c) = true
    · rw [if_pos hpc]
      exact hok s0 (winv_stat h hs0)
    · rw [if_neg hpc]
      exact winv_stat h hs0
  · rw [namesOKB]
    simp only [Bool.and_eq_true, decide_eq_true_eq]
    constructor
    · rw [allStats_updateStat]
      have hmapeq : (((allStats w).map (statUpd c f)).map
          (fun s => s.pddlName)) = (allStats w).map (fun s => s.pddlName) := by
        rw [List.map_map]
        apply List.map_congr_left
        intro s _
        simp only [Function.comp, statUpd]
        by_cases hpc : (s.pddlName == c) = true
        · rw [if_pos hpc]; exact hname s
        · rw [if_neg hpc]
      rw [hmapeq]
      exact winv_statNodup h
    · have heq : (updateStat w c f).movables = w.movables := rfl
      rw [heq]
      exact winv_movNodup h

theorem tvPerform_fields (coin : Bool) (ch : Nat) (t : Stationary) :
    (tvPerform coin ch t).1.pddlName = t.pddlName ∧
    (tvPerform coin ch t).1.stype = t.stype ∧
    (tvPerform coin ch t).1.levels = t.levels := by
  rw [tvPerform]
  by_cases hon : t.isOn = true
  · by_cases hc : coin = true
    · rw [if_pos hon, if_pos hc]; exact ⟨rfl, rfl, rfl⟩
    · rw [if_pos hon, if_neg hc]; exact ⟨rfl, rfl, rfl⟩
  · rw [if_neg hon]; exact ⟨rfl, rfl, rfl⟩

theorem statOKB_tvPerform (coin : Bool) (ch : Nat) (s : Stationary)
    (h : statOKB s = true) : statOKB (tvPerform coin ch s).1 = true := by
  have hch : ch % 6 < 6 := Nat.mod_lt _ (by decide)
  by_cases hon : s.isOn = true
  · by_cases hc : coin = true
    · have ht : (tvPerform coin ch s).1 = { s with channel := ch % 6 } := by
        rw [tvPerform, if_pos hon, if_pos hc]
      rw [ht]
      exact statOKB_of_fields h rfl rfl (Or.inr hch)
    · have ht : (tvPerform coin ch s).1 = { s with isOn := false } := by
        rw [tvPerform, if_pos hon, if_neg hc]
      rw [ht]
      exact statOKB_of_fields h rfl rfl (Or.inl rfl)
  · have ht : (tvPerform coin ch s).1 =
        { s with isOn := true, channel := ch % 6 } := by
      rw [tvPerform, if_neg hon]
    rw [ht]
    exact statOKB_of_fields h rfl rfl (Or.inr hch)

theorem itemOKB_updIdx_preserve (w : World) (i : Nat) (f : Movable → Movable)
    (hcont : ∀ x, (f x).container = x.container)
    (hlev : ∀ x, (f x).level = x.level)
    (hmty : ∀ x, (f x).mtype = x.mtype)
    (j : Nat) (h : itemOKB w j = true) :
    itemOKB { w with movables := updIdx w.movables i f } j = true := by
  have hfseq : ∀ c, findStat { w with movables := updIdx w.movables i f } c =
      findStat w c := fun c => rfl
  by_cases hji : j = i
  · subst hji
    cases hm : w.movables[j]? with
    | none =>
      have hlen : w.movables.length ≤ j := by
        by_contra hcon
        push_neg at hcon
        rw [List.getElem?_eq_getElem hcon] at hm
        exact Option.noConfusion hm
      have hnone : (updIdx w.movables j f)[j]? = none :=
        List.getElem?_eq_none (by rw [length_updIdx]; exact hlen)
      simp only [itemOKB, hnone]
    | some m =>
      have hup : (updIdx w.movables j f)[j]? = some (f m) :=
        getElem?_updIdx_self f hm
      simp only [itemOKB, hm] at h
      simp only [itemOKB, hup]
      cases hc : m.container with
      | none =>
        simp only [hcont m, hc]
        simp only [hc] at h
        exact h
      | some c' =>
        simp only [hcont m, hc]
        simp only [hc] at h
        rcases Bool.and_eq_true_iff.mp h with ⟨h1, h2⟩
        refine Bool.and_eq_true_iff.mpr ⟨h1, ?_⟩
        simp only [hfseq]
        cases hf : findStat w c' with
        | none =>
          rw [hf] at h2
          exact absurd (show (false : Bool) = true from h2) (by simp)
        | some s =>
          simp only [hf] at h2 ⊢
          simp only [hmty m, hlev m]
          exact h2
  · have hne : (updIdx w.movables i f)[j]? = w.movables[j]? :=
      getElem?_updIdx_ne _ f hji
    cases hm : w.movables[j]? with
    | none =>
      rw [hm] at hne
      simp only [itemOKB, hne]
    | some m =>
      rw [hm] at hne
      simp only [itemOKB, hm] at h
      simp only [itemOKB, hne]
      cases hc : m.container with
      | none =>
        simp only [hc] at h ⊢
        exact h
      | some c' =>
        simp only [hc] at h ⊢
        rcases Bool.and_eq_true_iff.mp h with ⟨h1, h2⟩
        refine Bool.and_eq_true_iff.mpr ⟨h1, ?_⟩
        simp only [hfseq]
        exact h2

theorem pickedWorld_winv {w : World} (h : WInv w) {i : Nat} {m : Movable}
    (hp : w.personItem = none) (hm : w.movables[i]? = some m) :
    WInv (pickedWorld w i) := by
  have hpi : (pickedWorld w i).personItem = some i := rfl
  have hmvP : (pickedWorld w i).movables = updIdx w.movables i
      (fun x => { x with container := none, level := none }) := rfl
  have hstats : allStats (pickedWorld w i) = allStats w := rfl
  have hfseq : ∀ c, findStat (pickedWorld w i) c = findStat w c := fun c => rfl
  rw [WInv, invB]
  simp only [Bool.and_eq_true]
  refine ⟨⟨⟨?_, ?_⟩, ?_⟩, ?_⟩
  · have hm2 : (updIdx w.movables i
        (fun x => { x with container := none, level := none }))[i]? =
        some { m with container := none, level := none } :=
      getElem?_updIdx_self _ hm
    simp only [heldOKB, hpi, hmvP, hm2]
    rfl
  · rw [List.all_eq_true]
    intro j _
    by_cases hji : j = i
    · subst hji
      have hm2 : (updIdx w.movables j
          (fun x => { x with container := none, level := none }))[j]? =
          some { m with container := none, level := none } :=
        getElem?_updIdx_self _ hm
      simp only [itemOKB, hmvP, hm2, hpi]
      simp
    · have hne : (updIdx w.movables i
          (fun x => { x with container := none, level := none }))[j]? =
          w.movables[j]? := getElem?_updIdx_ne _ _ hji
      have hic := winv_item h j
      cases hmj : w.movables[j]? with
      | none =>
        rw [hmj] at hne
        simp only [itemOKB, hmvP, hne]
      | some mj =>
        rw [hmj] at hne
        simp only [itemOKB, hmj] at hic
        simp only [itemOKB, hmvP, hne, hpi]
        cases hc : mj.container with
        | none =>
          exfalso
          simp only [hc, hp] at hic
          simp at hic
        | some cj =>
          simp only [hc] at hic ⊢
          rcases Bool.and_eq_true_iff.mp hic with ⟨h1, h2⟩
          refine Bool.and_eq_true_iff.mpr ⟨?_, ?_⟩
          · simp only [bne_iff_ne, ne_eq, Option.some.injEq]
            exact fun hh => hji hh.symm
          · simp only [hfseq]
            exact h2
  · rw [hstats, List.all_eq_true]
    intro t ht
    exact winv_stat h ht
  · rw [namesOKB]
    simp only [Bool.and_eq_true, decide_eq_true_eq]
    refine ⟨by rw [hstats]; exact winv_statNodup h, ?_⟩
    have hmn := map_updIdx w.movables i
      (fun x => ({ x with container := none, level := none } : Movable))
      (fun m => m.pddlName) (fun a => rfl)
    rw [hmvP, hmn]
    exact winv_movNodup h

theorem placedWorld_winv {w : World} (h : WInv w) {i : Nat} {m : Movable}
    (hpi0 : w.personItem = some i) (hm : w.movables[i]? = some m)
    {s : Stationary} (hs : s ∈ allStats w) (hch : canHold s.stype m.mtype = true)
    (lr : Nat) : WInv (placedWorld w i s lr) := by
  have hpiP : (placedWorld w i s lr).personItem = none := rfl
  have hmvP : (placedWorld w i s lr).movables = updIdx w.movables i
      (fun x => { x with container := some s.pddlName, level := (if s.stype == StatType.shelf then some (1 + lr % s.levels) else none) }) := rfl
  have hstats : allStats (placedWorld w i s lr) = allStats w := rfl
  have hfseq : ∀ c, findStat (placedWorld w i s lr) c = findStat w c :=
    fun c => rfl
  have hfs : findStat w s.pddlName = some s := by
    rw [findStat]
    exact find?_name_of_nodup (winv_statNodup h) hs
  have hstok := winv_stat h hs
  rw [WInv, invB]
  simp only [Bool.and_eq_true]
  refine ⟨⟨⟨?_, ?_⟩, ?_⟩, ?_⟩
  · simp only [heldOKB, hpiP]
  · rw [List.all_eq_true]
    intro j _
    by_cases hji : j = i
    · subst hji
      have hm2 : (updIdx w.movables j
          (fun x => { x with container := some s.pddlName, level := (if s.stype == StatType.shelf then some (1 + lr % s.levels) else none) }))[j]? =
          some { m with container := some s.pddlName, level := (if s.stype == StatType.shelf then some (1 + lr % s.levels) else none) } :=
        getElem?_updIdx_self _ hm
      simp only [itemOKB, hmvP, hm2, hpiP]
      simp only [hfseq, hfs]
      by_cases hsh : (s.stype == StatType.shelf) = true
      · have hlev3 : 3 ≤ s.levels := by
          rw [statOKB] at hstok
          rcases Bool.and_eq_true_iff.mp hstok with ⟨h1, _⟩
          rw [if_pos hsh] at h1
          rcases Bool.and_eq_true_iff.mp h1 with ⟨h3, _⟩
          exact of_decide_eq_true h3
        have hd1 : decide (1 ≤ 1 + lr % s.levels) = true :=
          decide_eq_true (by omega)
        have hd2 : decide (1 + lr % s.levels ≤ s.levels) = true := by
          have hmod : lr % s.levels < s.levels := Nat.mod_lt _ (by omega)
          exact decide_eq_true (by omega)
        simp [hsh, hch, hd1, hd2]
      · have hshf : (s.stype == StatType.shelf) = false :=
          Bool.eq_false_iff.mpr hsh
        simp [hshf, hch]
    · have hne : (updIdx w.movables i
          (fun x => { x with container := some s.pddlName, level := (if s.stype == StatType.shelf then some (1 + lr % s.levels) else none) }))[j]? =
          w.movables[j]? := getElem?_updIdx_ne _ _ hji
      have hic := winv_item h j
      cases hmj : w.movables[j]? with
      | none =>
        rw [hmj] at hne
        simp only [itemOKB, hmvP, hne]
      | some mj =>
        rw [hmj] at hne
        simp only [itemOKB, hmj] at hic
        simp only [itemOKB, hmvP, hne, hpiP]
        cases hc : mj.container with
        | none =>
          exfalso
          simp only [hc, hpi0] at hic
          have hij : i = j := by simpa using hic
          exact hji hij.symm
        | some cj =>
          simp only [hc] at hic ⊢
          rcases Bool.and_eq_true_iff.mp hic with ⟨h1, h2⟩
          refine Bool.and_eq_true_iff.mpr ⟨by simp, ?_⟩
          simp only [hfseq]
          exact h2
  · rw [hstats, List.all_eq_true]
    intro t ht
    exact winv_stat h ht
  · rw [namesOKB]
    simp only [Bool.and_eq_true, decide_eq_true_eq]
    refine ⟨by rw [hstats]; exact winv_statNodup h, ?_⟩
    have hmn := map_updIdx w.movables i
      (fun x => ({ x with container := some s.pddlName, level := (if s.stype == StatType.shelf then some (1 + lr % s.levels) else none) } : Movable))
      (fun m => m.pddlName) (fun a => rfl)
    rw [hmvP, hmn]
    exact winv_movNodup h

theorem rangWorld_winv {w : World} (h : WInv w) {i : Nat} {m : Movable}
    (hm : w.movables[i]? = some m) : WInv (rangWorld w i) := by
  have hpiR : (rangWorld w i).personItem = w.personItem := rfl
  have hmvR : (rangWorld w i).movables =
      updIdx w.movables i (fun x => { x with ringing := !x.ringing }) := rfl
  have hstats : allStats (rangWorld w i) = allStats w := rfl
  rw [WInv, invB]
  simp only [Bool.and_eq_true]
  refine ⟨⟨⟨?_, ?_⟩, ?_⟩, ?_⟩
  · have hh := winv_held h
    cases hk : w.personItem with
    | none => simp only [heldOKB, hpiR, hk]
    | some k =>
      simp only [heldOKB, hk] at hh
      cases hmk : w.movables[k]? with
      | none =>
        rw [hmk] at hh
        exact absurd (show (false : Bool) = true from hh) (by simp)
      | some mk =>
        simp only [hmk] at hh
        by_cases hki : k = i
        · subst hki
          have hm2 := getElem?_updIdx_self
            (fun x => { x with ringing := !x.ringing }) hmk
          simp only [heldOKB, hpiR, hk, hmvR, hm2]
          exact hh
        · have hne := getElem?_updIdx_ne w.movables
            (fun x => { x with ringing := !x.ringing }) hki
          rw [hmk] at hne
          simp only [heldOKB, hpiR, hk, hmvR, hne]
          exact hh
  · rw [List.all_eq_true]
    intro j _
    exact itemOKB_updIdx_preserve w i (fun x => { x with ringing := !x.ringing })
      (fun x => rfl) (fun x => rfl) (fun x => rfl) j (winv_item h j)
  · rw [hstats, List.all_eq_true]
    intro t ht
    exact winv_stat h ht
  · rw [namesOKB]
    simp only [Bool.and_eq_true, decide_eq_true_eq]
    refine ⟨by rw [hstats]; exact winv_statNodup h, ?_⟩
    have hmn := map_updIdx w.movables i
      (fun x => ({ x with ringing := !x.ringing } : Movable))
      (fun m => m.pddlName) (fun a => rfl)
    rw [hmvR, hmn]
    exact winv_movNodup h

theorem atomicStep_winv {w : World} (h : WInv w) {n : String} {w2 : World}
    (hstep : AtomicStep w n w2) : WInv w2 := by
  rw [AtomicStep] at hstep
  rcases hstep with ⟨i, hp⟩ | ⟨s, lr, hs, hp⟩ | ⟨s, hs, hp⟩ | ⟨s, hs, hp⟩ |
    ⟨s, hs, hp⟩ | ⟨s, coin, ch, hs, hp⟩ | ⟨i, hp⟩
  · cases hpe : w.personItem with
    | some k =>
      simp only [pickUp, hpe] at hp
      exact ActRes.noConfusion hp
    | none =>
      cases hm : w.movables[i]? with
      | none =>
        simp only [pickUp, hpe, hm] at hp
        exact ActRes.noConfusion hp
      | some m =>
        cases hc : m.container with
        | none =>
          simp only [pickUp, hpe, hm, hc] at hp
          exact ActRes.noConfusion hp
        | some c =>
          have heq : pickUp w i =
              .act ("I picked up " ++ m.pddlName ++ ".") (pickedWorld w i) := by
            simp only [pickUp, pickedWorld, hpe, hm, hc]
          rw [heq] at hp
          injection hp with h1 h2
          rw [← h2]
          exact pickedWorld_winv h hpe hm
  · cases hpe : w.personItem with
    | none =>
      simp only [placeInto, hpe] at hp
      exact ActRes.noConfusion hp
    | some i =>
      cases hm : w.movables[i]? with
      | none =>
        simp only [placeInto, hpe, hm] at hp
        exact ActRes.noConfusion hp
      | some m =>
        by_cases hch : canHold s.stype m.mtype = true
        · have heq : placeInto w s lr =
              .act ("I placed " ++ m.pddlName ++ " into " ++ s.pddlName ++ ".")
                (placedWorld w i s lr) := by
            simp only [placeInto, placedWorld, hpe, hm, if_pos hch]
          rw [heq] at hp
          injection hp with h1 h2
          rw [← h2]
          exact placedWorld_winv h hpe hm hs hch lr
        · simp only [placeInto, hpe, hm, if_neg hch] at hp
          exact ActRes.noConfusion hp
  · rw [toggleWindow] at hp
    injection hp with h1 h2
    rw [← h2]
    exact updateStat_winv w s.pddlName _ (fun t => rfl) (fun t => rfl)
      (fun t => rfl) (fun t ht => statOKB_of_fields ht rfl rfl (Or.inl rfl)) h
  · rw [toggleLight] at hp
    injection hp with h1 h2
    rw [← h2]
    exact updateStat_winv w s.pddlName _ (fun t => rfl) (fun t => rfl)
      (fun t => rfl) (fun t ht => statOKB_of_fields ht rfl rfl (Or.inl rfl)) h
  · rw [sinkInteract] at hp
    injection hp with h1 h2
    rw [← h2]
    exact updateStat_winv w s.pddlName _ (fun t => rfl) (fun t => rfl)
      (fun t => rfl) (fun t ht => statOKB_of_fields ht rfl rfl (Or.inl rfl)) h
  · rw [tvGo] at hp
    injection hp with h1 h2
    rw [← h2]
    exact updateStat_winv w s.pddlName _
      (fun t => (tvPerform_fields coin ch t).1)
      (fun t => (tvPerform_fields coin ch t).2.1)
      (fun t => (tvPerform_fields coin ch t).2.2)
      (fun t ht => statOKB_tvPerform coin ch t ht) h
  · cases hm : w.movables[i]? with
    | none =>
      simp only [phoneRing, hm] at hp
      exact ActRes.noConfusion hp
    | some m =>
      have heq : phoneRing w i =
          .act (m.pddlName ++ (if !m.ringing then " started" else " stopped")
            ++ " ringing.") (rangWorld w i) := by
        simp only [phoneRing, rangWorld, hm]
      rw [heq] at hp
      injection hp with h1 h2
      rw [← h2]
      exact rangWorld_winv h hm

/-! ## C1: exclusive ownership at every timestep -/

/-- One timeline step: apply generate_state_change and keep the new
world of the narrated action (a fatal or diverging run changes
nothing). -/
def stepWorld (w : World) (plans : List StepPlan) : World :=
  match genStateChange w plans with
  | .out _ w2 => w2
  | _ => w

/-- The world after a sequence of generate_state_change invocations. -/
def runSim (w : World) : List (List StepPlan) → World
  | [] => w
  | ps :: rest => runSim (stepWorld w ps) rest

theorem stepWorld_winv (w : World) (h : WInv w) (plans : List StepPlan) :
    WInv (stepWorld w plans) := by
  rw [stepWorld]
  cases hg : genStateChange w plans with
  | out n w2 =>
    rw [genStateChange] at hg
    exact atomicStep_winv h (genLoop_out hg)
  | fatal => exact h
  | spin => exact h
  | afail => exact h

theorem runSim_winv (w : World) (h : WInv w) :
    ∀ traces : List (List StepPlan), WInv (runSim w traces)
  | [] => h
  | ps :: rest => runSim_winv (stepWorld w ps) (stepWorld_winv w h ps) rest

/-- The item is in the person's hand: its container field is cleared
and the person's held item is exactly this index. -/
def HeldByPerson (w : World) (j : Nat) (m : Movable) : Prop :=
  m.container = none ∧ w.personItem = some j

/-- The item sits inside exactly one stationary container of the world,
and that container's can_hold accepts the item's type. -/
def InOneAcceptingContainer (w : World) (m : Movable) : Prop :=
  ∃! s : Stationary, s ∈ allStats w ∧ m.container = some s.pddlName ∧
    canHold s.stype m.mtype = true

/-- Exclusive ownership: each pool movable is exactly one of
held-by-person (and then not contained) or contained in exactly one
accepting container (and then not held) — never both, never neither. -/
def Ownership (w : World) : Prop :=
  ∀ j m, w.movables[j]? = some m →
    (HeldByPerson w j m ∧
       ¬(InOneAcceptingContainer w m ∧ w.personItem ≠ some j)) ∨
    (InOneAcceptingContainer w m ∧ w.personItem ≠ some j ∧
       ¬HeldByPerson w j m)

theorem winv_ownership {w : World} (h : WInv w) : Ownership w := by
  intro j m hm
  have hio := winv_item h j
  simp only [itemOKB, hm] at hio
  cases hc : m.container with
  | none =>
    simp only [hc] at hio
    have hpj : w.personItem = some j := by simpa using hio
    left
    refine ⟨⟨hc, hpj⟩, ?_⟩
    rintro ⟨⟨s, ⟨_, hsc, _⟩, _⟩, _⟩
    rw [hc] at hsc
    exact Option.noConfusion hsc
  | some c =>
    simp only [hc] at hio
    rcases Bool.and_eq_true_iff.mp hio with ⟨h1, h2⟩
    cases hf : findStat w c with
    | none =>
      rw [hf] at h2
      exact absurd (show (false : Bool) = true from h2) (by simp)
    | some s =>
      simp only [hf] at h2
      rcases Bool.and_eq_true_iff.mp h2 with ⟨hch, _⟩
      rw [findStat] at hf
      have hsmem : s ∈ allStats w := List.mem_of_find?_eq_some hf
      have hsname : s.pddlName = c := by
        have hps := List.find?_some hf
        simpa using hps
      have hpj : w.personItem ≠ some j := by
        intro hh
        rw [hh] at h1
        simp at h1
      right
      refine ⟨⟨s, ⟨hsmem, by rw [hc, hsname], hch⟩, ?_⟩, hpj, ?_⟩
      · rintro t ⟨htmem, htc, _⟩
        rw [hc] at htc
        have htn : t.pddlName = c := (Option.some.inj htc).symm
        exact List.inj_on_of_nodup_map (winv_statNodup h) htmem hsmem
          (by rw [htn, hsname])
      · rintro ⟨hcn, _⟩
        rw [hc] at hcn
        exact Option.noConfusion hcn

/-- C1: in a generated world, at every timestep — initially and after
every state-changing action of the simulated timeline — every tracked
movable item is in exactly one of two states: held by the person
(container cleared, person's item is that index) or inside exactly one
container whose can_hold accepts its type (and then not held) — never
both, never neither. -/
theorem ownership_invariant_every_timestep (ctx : GenCtx) (hshuf : shufPerm ctx)
    (pool0 : List Movable) (roomDefs : List (String × RoomType))
    (hnd0 : (pool0.map (fun m => m.pddlName)).Nodup)
    (hfresh0 : ∀ m ∈ pool0, m.container = none)
    (hstatnd : ((allStats (mkWorld ctx pool0 roomDefs)).map
      (fun s => s.pddlName)).Nodup)
    (traces : List (List StepPlan)) :
    Ownership (runSim (mkWorld ctx pool0 roomDefs) traces) :=
  winv_ownership (runSim_winv _
    (mkWorld_winv ctx pool0 roomDefs hshuf hnd0 hfresh0 hstatnd) traces)

/-- Witness for C1: a concrete generated kitchen world stepped once. -/
theorem ownership_invariant_every_timestep_witness :
    Ownership (runSim (mkWorld ctx0 [freshApple]
      [("kitchen", RoomType.kitchen)]) [[sp3]]) :=
  ownership_invariant_every_timestep ctx0 (fun k l => List.Perm.refl l)
    [freshApple] [("kitchen", RoomType.kitchen)]
    (by decide) (by decide) (by decide) [[sp3]]

/-! ## C5: items never placed are dropped, and stay out of the problem -/

theorem flatMap_congr {l : List α} {f g : α → List β}
    (h : ∀ a ∈ l, f a = g a) : l.flatMap f = l.flatMap g := by
  induction l with
  | nil => rfl
  | cons a l ih =>
    simp only [List.flatMap_cons]
    rw [h a (List.mem_cons_self _ _), ih (fun b hb => h b (List.mem_cons_of_mem _ hb))]

theorem statUpd_name (c : String) (f : Stationary → Stationary)
    (hn : ∀ s, (f s).pddlName = s.pddlName) (s : Stationary) :
    (statUpd c f s).pddlName = s.pddlName := by
  rw [statUpd]
  by_cases hpc : (s.pddlName == c) = true
  · rw [if_pos hpc]; exact hn s
  · rw [if_neg hpc]

theorem pddlObjects_congr {w2 w : World} (hr : w2.rooms = w.rooms)
    (hm : w2.movables.map (fun m => (m.pddlName, movTypeName m.mtype)) =
          w.movables.map (fun m => (m.pddlName, movTypeName m.mtype))) :
    pddlObjects w2 = pddlObjects w := by
  rw [pddlObjects, pddlObjects, hr, hm]

theorem pddlObjects_updateStat (w : World) (c : String)
    (f : Stationary → Stationary)
    (hn : ∀ s, (f s).pddlName = s.pddlName)
    (hty : ∀ s, (f s).stype = s.stype) :
    pddlObjects (updateStat w c f) = pddlObjects w := by
  rw [pddlObjects, pddlObjects]
  have h1 : (updateStat w c f).rooms =
      w.rooms.map (fun r => { r with stats := r.stats.map (statUpd c f) }) := rfl
  have h2 : (updateStat w c f).movables = w.movables := rfl
  rw [h1, h2]
  congr 1
  rw [List.flatMap_map]
  refine congrArg
    (fun l => l ++ List.map (fun m => (m.pddlName, movTypeName m.mtype)) w.movables
      ++ staticObjects) ?_
  apply flatMap_congr
  intro r _
  simp only [Function.comp]
  congr 1
  rw [List.map_map]
  apply List.map_congr_left
  intro s _
  simp only [Function.comp]
  rw [statUpd_name c f hn s, statUpd_stype c f hty s]

theorem atomicStep_names {w : World} {n : String} {w2 : World}
    (hstep : AtomicStep w n w2) :
    w2.movables.map (fun m => m.pddlName) = w.movables.map (fun m => m.pddlName) ∧
    pddlObjects w2 = pddlObjects w := by
  rw [AtomicStep] at hstep
  rcases hstep with ⟨i, hp⟩ | ⟨s, lr, hs, hp⟩ | ⟨s, hs, hp⟩ | ⟨s, hs, hp⟩ |
    ⟨s, hs, hp⟩ | ⟨s, coin, ch, hs, hp⟩ | ⟨i, hp⟩
  · cases hpe : w.personItem with
    | some k =>
      simp only [pickUp, hpe] at hp
      exact ActRes.noConfusion hp
    | none =>
      cases hm : w.movables[i]? with
      | none =>
        simp only [pickUp, hpe, hm] at hp
        exact ActRes.noConfusion hp
      | some m =>
        cases hc : m.container with
        | none =>
          simp only [pickUp, hpe, hm, hc] at hp
          exact ActRes.noConfusion hp
        | some c =>
          have heq : pickUp w i =
              .act ("I picked up " ++ m.pddlName ++ ".") (pickedWorld w i) := by
            simp only [pickUp, pickedWorld, hpe, hm, hc]
          rw [heq] at hp
          injection hp with h1 h2
          rw [← h2]
          constructor
          · exact map_updIdx w.movables i
              (fun x => ({ x with container := none, level := none } : Movable))
              (fun m => m.pddlName) (fun a => rfl)
          · exact pddlObjects_congr rfl (map_updIdx w.movables i
              (fun x => ({ x with container := none, level := none } : Movable))
              (fun m => (m.pddlName, movTypeName m.mtype)) (fun a => rfl))
  · cases hpe : w.personItem with
    | none =>
      simp only [placeInto, hpe] at hp
      exact ActRes.noConfusion hp
    | some i =>
      cases hm : w.movables[i]? with
      | none =>
        simp only [placeInto, hpe, hm] at hp
        exact ActRes.noConfusion hp
      | some m =>
        by_cases hch : canHold s.stype m.mtype = true
        · have heq : placeInto w s lr =
              .act ("I placed " ++ m.pddlName ++ " into " ++ s.pddlName ++ ".")
                (placedWorld w i s lr) := by
            simp only [placeInto, placedWorld, hpe, hm, if_pos hch]
          rw [heq] at hp
          injection hp with h1 h2
          rw [← h2]
          constructor
          · exact map_updIdx w.movables i
              (fun x => ({ x with container := some s.pddlName, level := (if s.stype == StatType.shelf then some (1 + lr % s.levels) else none) } : Movable))
              (fun m => m.pddlName) (fun a => rfl)
          · exact pddlObjects_congr rfl (map_updIdx w.movables i
              (fun x => ({ x with container := some s.pddlName, level := (if s.stype == StatType.shelf then some (1 + lr % s.levels) else none) } : Movable))
              (fun m => (m.pddlName, movTypeName m.mtype)) (fun a => rfl))
        · simp only [placeInto, hpe, hm, if_neg hch] at hp
          exact ActRes.noConfusion hp
  · rw [toggleWindow] at hp
    injection hp with h1 h2
    rw [← h2]
    exact ⟨rfl, pddlObjects_updateStat w s.pddlName _ (fun t => rfl) (fun t => rfl)⟩
  · rw [toggleLight] at hp
    injection hp with h1 h2
    rw [← h2]
    exact ⟨rfl, pddlObjects_updateStat w s.pddlName _ (fun t => rfl) (fun t => rfl)⟩
  · rw [sinkInteract] at hp
    injection hp with h1 h2
    rw [← h2]
    exact ⟨rfl, pddlObjects_updateStat w s.pddlName _ (fun t => rfl) (fun t => rfl)⟩
  · rw [tvGo] at hp
    injection hp with h1 h2
    rw [← h2]
    exact ⟨rfl, pddlObjects_updateStat w s.pddlName _
      (fun t => (tvPerform_fields coin ch t).1)
      (fun t => (tvPerform_fields coin ch t).2.1)⟩
  · cases hm : w.movables[i]? with
    | none =>
      simp only [phoneRing, hm] at hp
      exact ActRes.noConfusion hp
    | some m =>
      have heq : phoneRing w i =
          .act (m.pddlName ++ (if !m.ringing then " started" else " stopped")
            ++ " ringing.") (rangWorld w i) := by
        simp only [phoneRing, rangWorld, hm]
      rw [heq] at hp
      injection hp with h1 h2
      rw [← h2]
      constructor
      · exact map_updIdx w.movables i
          (fun x => ({ x with ringing := !x.ringing } : Movable))
          (fun m => m.pddlName) (fun a => rfl)
      · exact pddlObjects_congr rfl (map_updIdx w.movables i
          (fun x => ({ x with ringing := !x.ringing } : Movable))
          (fun m => (m.pddlName, movTypeName m.mtype)) (fun a => rfl))

theorem stepWorld_names (w : World) (plans : List StepPlan) :
    (stepWorld w plans).movables.map (fun m => m.pddlName) =
      w.movables.map (fun m => m.pddlName) ∧
    pddlObjects (stepWorld w plans) = pddlObjects w := by
  rw [stepWorld]
  cases hg : genStateChange w plans with
  | out n w2 =>
    rw [genStateChange] at hg
    exact atomicStep_names (genLoop_out hg)
  | fatal => exact ⟨rfl, rfl⟩
  | spin => exact ⟨rfl, rfl⟩
  | afail => exact ⟨rfl, rfl⟩

theorem runSim_names (w : World) :
    ∀ traces : List (List StepPlan),
      (runSim w traces).movables.map (fun m => m.pddlName) =
        w.movables.map (fun m => m.pddlName) ∧
      pddlObjects (runSim w traces) = pddlObjects w
  | [] => ⟨rfl, rfl⟩
  | ps :: rest => by
    have h1 := stepWorld_names w ps
    have h2 := runSim_names (stepWorld w ps) rest
    exact ⟨h2.1.trans h1.1, h2.2.trans h1.2⟩

/-- A movable item the generator instantiated but never placed. -/
def phoneItem : Movable := ⟨"phone", .phone, none, none, false⟩

/-- Counterexample to the literal C5 wording: a phone generated into
the initial pool of a kitchen-only world is never drawn into the room,
yet it does not remain in the generator's pool — DatasetGenerator's
init removes it from movable_items entirely. -/
theorem unplaced_item_dropped_from_pool :
    phoneItem ∈ unplacedItems ctx0 [phoneItem] [("kitchen", RoomType.kitchen)] ∧
    phoneItem ∉ (mkWorld ctx0 [phoneItem]
      [("kitchen", RoomType.kitchen)]).movables := by
  decide

/-- C5 (amended): an item never drawn into any room is removed from the
generator's pool — at every later timestep its symbol is not among the
pool movables — and, when its symbol is not reused by another declared
object, it never appears in the problem's objects section nor in any
init predicate's arguments, at any timestep. -/
theorem unplaced_removed_and_absent (ctx : GenCtx) (hshuf : shufPerm ctx)
    (pool0 : List Movable) (roomDefs : List (String × RoomType))
    (hnd0 : (pool0.map (fun m => m.pddlName)).Nodup)
    (hfresh0 : ∀ m ∈ pool0, m.container = none)
    (hstatnd : ((allStats (mkWorld ctx pool0 roomDefs)).map
      (fun s => s.pddlName)).Nodup)
    (traces : List (List StepPlan)) :
    ∀ u ∈ unplacedItems ctx pool0 roomDefs,
      u.pddlName ∉ (runSim (mkWorld ctx pool0 roomDefs) traces).movables.map
        (fun m => m.pddlName) ∧
      (u.pddlName ∉ objNames (mkWorld ctx pool0 roomDefs) →
        u.pddlName ∉ objNames (runSim (mkWorld ctx pool0 roomDefs) traces) ∧
        ∀ p ∈ initConds (runSim (mkWorld ctx pool0 roomDefs) traces),
          u.pddlName ∉ p.args) := by
  intro u hu
  have hu2 : u ∈ (genRooms ctx roomDefs 0 pool0).rest := hu
  have hndrec : pool0.Nodup := hnd0.of_map
  obtain ⟨_, _, ⟨origs, hperm, hnames⟩, _, _⟩ :=
    genRooms_spec ctx hshuf roomDefs 0 pool0 hndrec hfresh0
  have hrun := runSim_names (mkWorld ctx pool0 roomDefs) traces
  constructor
  · rw [hrun.1]
    have hmv : (mkWorld ctx pool0 roomDefs).movables =
        (genRooms ctx roomDefs 0 pool0).placed := rfl
    rw [hmv, hnames]
    intro hin
    have hpermn := hperm.map (fun m => m.pddlName)
    rw [List.map_append] at hpermn
    have hnd : (origs.map (fun m => m.pddlName) ++
        (genRooms ctx roomDefs 0 pool0).rest.map (fun m => m.pddlName)).Nodup :=
      hpermn.nodup_iff.mp hnd0
    have hdisj := List.nodup_append.mp hnd
    have hurest : u.pddlName ∈ (genRooms ctx roomDefs 0 pool0).rest.map
        (fun m => m.pddlName) := List.mem_map_of_mem _ hu2
    exact hdisj.2.2 hin hurest
  · intro hobj
    have hobje : objNames (runSim (mkWorld ctx pool0 roomDefs) traces) =
        objNames (mkWorld ctx pool0 roomDefs) := by
      rw [objNames, objNames, hrun.2]
    constructor
    · rw [hobje]; exact hobj
    · intro p hp hargs
      have hW := runSim_winv _
        (mkWorld_winv ctx pool0 roomDefs hshuf hnd0 hfresh0 hstatnd) traces
      have hmem := initArgs_subset_objNames _ hW p hp u.pddlName hargs
      rw [hobje] at hmem
      exact hobj hmem

/-- Witness for the amended C5 at the kitchen world with an unplaced
phone, one timestep deep. -/
theorem unplaced_removed_and_absent_witness :
    phoneItem ∈ unplacedItems ctx0 [phoneItem] [("kitchen", RoomType.kitchen)] ∧
    phoneItem.pddlName ∉ (runSim (mkWorld ctx0 [phoneItem]
      [("kitchen", RoomType.kitchen)]) [[sp3]]).movables.map
        (fun m => m.pddlName) :=
  ⟨by decide,
   (unplaced_removed_and_absent ctx0 (fun k l => List.Perm.refl l) [phoneItem]
      [("kitchen", RoomType.kitchen)] (by decide) (by decide) (by decide)
      [[sp3]] phoneItem (by decide)).1⟩
